import Mathlib

/-!
# Go-CustomDB-API: a file-backed record store

A shallow embedding of `main.go`: the storage `Driver` (`New`, `Write`, `Read`,
`Delete`, `getOrCreateMutex`) and the four HTTP controllers built on it
(`CreateUser`, `GetUser`, `GetAllUsers`, `DeleteUser`).

The driver is a thin layer over the Go standard library, so the parts of the
library it calls are embedded too, each in a namespace named after its Go
package:

* `utf8`     : `DecodeRune`, `AppendRune`;
* `filepath` : `Clean`, `Join`, `Ext` (Unix separator);
* `os`       : `Stat`, `Mkdir`, `MkdirAll`, `WriteFile`, `ReadFile`, `Remove`,
               `ReadDir` over a map from path to node;
* `json`     : `MarshalIndent` and `Unmarshal` at the type `User`.

Conventions.

* A Go `string` / `[]byte` is a list of bytes, `Str := List Nat`; every byte a
  program can hold is below 256, and the functions that care (`utf8`, `json`)
  test byte ranges explicitly.
* The file system is a finite map from path to node.  Paths are resolved
  lexically: the driver only ever passes paths produced by `filepath.Join`,
  which are already cleaned.  Permissions, symbolic links and I/O faults are
  outside the model.
* A `*sync.Mutex` is its address; `&sync.Mutex{}` takes the next free address.
  Execution is sequential, so `Lock` on a mutex nobody holds and the deferred
  `Unlock` do not change the state.
* `Write` takes `v interface{}`; the program only ever passes a `User`, and the
  embedding is at that type.  A method of `*Driver` is a function of the
  `World`: the driver together with the file system it works on.
* Loops of the library that consume their input are given the length of the
  input as a bound on their iterations; the scanner's recursion is bounded by
  its own limit on nesting.
-/

namespace GoCustomDB

deriving instance DecidableEq for Except

/-- Equality of finite maps with byte-string keys, decided on their entries. -/
instance decEqAList {β : Type} [DecidableEq β] : DecidableEq (AList (fun _ : List Nat => β)) :=
  fun a b => decidable_of_iff (a.entries = b.entries) AList.ext_iff.symm

/-- Go `string` and `[]byte`: a sequence of bytes. -/
abbrev Str := List Nat

/-! ## Package `unicode/utf8` -/

namespace utf8

/-- The replacement character U+FFFD, `utf8.RuneError`. -/
def RuneError : Nat := 0xFFFD

/-- A continuation byte, `0x80 ≤ b ≤ 0xBF`. -/
def isCont (b : Nat) : Bool := 0x80 ≤ b && b ≤ 0xBF

/-- Go's `utf8.DecodeRune p`: the first rune of `p` and its width in bytes;
`(RuneError, 0)` on empty input and `(RuneError, 1)` when `p` does not start
with a well-formed encoding (overlong forms, surrogates and values above
U+10FFFF are not well formed). -/
def DecodeRune : Str → Nat × Nat
  | [] => (RuneError, 0)
  | b0 :: rest =>
    if b0 < 0x80 then (b0, 1)
    else if 0xC2 ≤ b0 ∧ b0 ≤ 0xDF then
      match rest with
      | b1 :: _ =>
        if isCont b1 then ((b0 - 0xC0) * 64 + (b1 - 0x80), 2) else (RuneError, 1)
      | _ => (RuneError, 1)
    else if 0xE0 ≤ b0 ∧ b0 ≤ 0xEF then
      match rest with
      | b1 :: b2 :: _ =>
        let lo := if b0 = 0xE0 then 0xA0 else 0x80
        let hi := if b0 = 0xED then 0x9F else 0xBF
        if lo ≤ b1 ∧ b1 ≤ hi ∧ isCont b2 then
          ((b0 - 0xE0) * 4096 + (b1 - 0x80) * 64 + (b2 - 0x80), 3)
        else (RuneError, 1)
      | _ => (RuneError, 1)
    else if 0xF0 ≤ b0 ∧ b0 ≤ 0xF4 then
      match rest with
      | b1 :: b2 :: b3 :: _ =>
        let lo := if b0 = 0xF0 then 0x90 else 0x80
        let hi := if b0 = 0xF4 then 0x8F else 0xBF
        if lo ≤ b1 ∧ b1 ≤ hi ∧ isCont b2 ∧ isCont b3 then
          ((b0 - 0xF0) * 262144 + (b1 - 0x80) * 4096 + (b2 - 0x80) * 64 + (b3 - 0x80), 4)
        else (RuneError, 1)
      | _ => (RuneError, 1)
    else (RuneError, 1)

/-- The UTF-8 encoding of a rune that is known to be encodable. -/
def encodeValid (r : Nat) : Str :=
  if r < 0x80 then [r]
  else if r < 0x800 then [0xC0 + r / 64, 0x80 + r % 64]
  else if r < 0x10000 then [0xE0 + r / 4096, 0x80 + r / 64 % 64, 0x80 + r % 64]
  else [0xF0 + r / 262144, 0x80 + r / 4096 % 64, 0x80 + r / 64 % 64, 0x80 + r % 64]

/-- Go's `utf8.AppendRune nil r`: the UTF-8 encoding of `r`; surrogates and values
above U+10FFFF are encoded as `RuneError`. -/
def AppendRune (r : Nat) : Str :=
  if (0xD800 ≤ r ∧ r ≤ 0xDFFF) ∨ 0x10FFFF < r then encodeValid RuneError
  else encodeValid r

end utf8

/-- The bytes of a source-code string literal. -/
def lit (s : String) : Str := s.toList.flatMap (fun c => utf8.AppendRune c.toNat)

/-! ## Package `path/filepath` (Unix) -/

namespace filepath

/-- The path separator `'/'`. -/
abbrev Separator : Nat := 47

/-- The elements of a path: the pieces between separators, empty ones
included (`"/a//b"` has the elements `""`, `"a"`, `""`, `"b"`). -/
def elements : Str → List Str
  | [] => [[]]
  | b :: rest =>
    if b = Separator then [] :: elements rest
    else match elements rest with
      | [] => [[b]]
      | e :: es => (b :: e) :: es

/-- One iteration of the loop of `Clean`, on the element `e`.  `out` is the
output buffer as the list of elements written so far, the last one first.

* an empty element (a repeated separator) and `.` are skipped;
* `..` removes the last element when there is one to remove (`out.w > dotdot`:
  the buffer holds something other than leading `..` elements); otherwise it is
  appended when the path is not rooted, and dropped when it is;
* any other element is appended. -/
def cleanStep (rooted : Bool) (out : List Str) (e : Str) : List Str :=
  if e = [] ∨ e = [46] then out
  else if e = [46, 46] then
    match out with
    | [] => if rooted then [] else [e]
    | top :: below => if top = [46, 46] then (if rooted then out else e :: out) else below
  else e :: out

/-- The elements joined by the separator. -/
def joinElements : List Str → Str
  | [] => []
  | [e] => e
  | e :: es => e ++ Separator :: joinElements es

/-- The output buffer as a string: the leading `/` of a rooted path, the
elements separated by `/`, and `.` when nothing was written. -/
def render (rooted : Bool) (out : List Str) : Str :=
  if rooted then Separator :: joinElements out.reverse
  else if out = [] then [46]
  else joinElements out.reverse

/-- Whether a path is rooted: it starts with the separator. -/
def isRooted (path : Str) : Bool := decide (path.head? = some Separator)

/-- The output buffer of `Clean` after its loop over the elements of `path`. -/
def cleaned (path : Str) : List Str := (elements path).foldl (cleanStep (isRooted path)) []

/-- Go's `filepath.Clean`: the shortest path equivalent to `path` by purely lexical
processing. -/
def Clean (path : Str) : Str :=
  if path = [] then [46]
  else render (isRooted path) (cleaned path)

/-- The buffers the loop of `Clean` can hold: elements that are non-empty, free
of separators and not `.`, with `..` only at the start of a path that is not
rooted.  (The last element written is the head of the list.) -/
def Normal (rooted : Bool) : List Str → Prop
  | [] => True
  | e :: out =>
    e ≠ [] ∧ Separator ∉ e ∧ e ≠ [46] ∧
      (e = [46, 46] → rooted = false ∧ ∀ t ∈ out.head?, t = [46, 46]) ∧ Normal rooted out

/-- A plain file or directory name: non-empty, without a separator, and not
`.` or `..`. -/
def IsName (e : Str) : Prop := e ≠ [] ∧ Separator ∉ e ∧ e ≠ [46] ∧ e ≠ [46, 46]

/-- What `render` writes before the next element: nothing or the root for an
empty buffer, the rendered buffer and a separator otherwise. -/
def stem (rooted : Bool) (out : List Str) : Str :=
  if out = [] then (if rooted then [Separator] else []) else render rooted out ++ [Separator]

/-- What `Join` puts before the names that follow the root `dir`. -/
def joinStem (dir : Str) : Str :=
  if dir = [] then [] else stem (isRooted dir) (cleaned dir)

/-- Go's `filepath.Join`: the elements from the first non-empty one on, separated
by `/` and cleaned; the empty string when every element is empty. -/
def Join : List Str → Str
  | [] => []
  | e :: es => if e = [] then Join es else Clean (joinElements (e :: es))

/-- The loop of `Ext`, scanning from the end: `rev` is the part of the path
still to scan, reversed, and `acc` the part already scanned. -/
def extFrom : Str → Str → Str
  | [], _ => []
  | b :: rev, acc =>
    if b = Separator then []
    else if b = 46 then 46 :: acc
    else extFrom rev (b :: acc)

/-- Go's `filepath.Ext`: the suffix beginning at the final dot in the final element
of `path`; empty if there is no dot. -/
def Ext (path : Str) : Str := extFrom path.reverse []

end filepath

/-! ## Package `os`: the file system -/

namespace os

/-- What a path names: a regular file with its content, or a directory. -/
inductive Node where
  | file (data : Str)
  | dir
  deriving DecidableEq, Repr

/-- The file system: a finite map from (cleaned) path to node.  The current
directory `.`, its ancestors `..`, `../..`, ... and the root `/` always exist
and are not stored in the map.  The stored paths form a file tree: the calls
below store a path only under an existing directory, so from the empty map
nothing is ever stored below a regular file or below a path that names
nothing.  Permissions, symbolic links and the limits on the length of a name
are not part of the model. -/
abbrev FS := AList (fun _ : Str => Node)

/-- The error numbers the calls below can fail with. -/
inductive Errno where
  | ENOENT | ENOTDIR | EISDIR | EEXIST | ENOTEMPTY | EINVAL | EBUSY
  deriving DecidableEq, Repr

/-- The directories that exist in every state: `.`, `/`, and `..`, `../..`, ... -/
def isAmbient (p : Str) : Bool :=
  p = [46] || p = [47] || (filepath.elements p).all (fun e => e = [46, 46])

/-- The directory part of a path: what precedes its last separator; `.` for a
path without a separator and `/` for a path directly under the root. -/
def parent (p : Str) : Str :=
  match p.reverse.dropWhile (fun b => b ≠ 47) with
  | [] => [46]
  | _ :: d => if d = [] then [47] else d.reverse

/-- The last element of a path: what follows its last separator. -/
def base (p : Str) : Str := (p.reverse.takeWhile (fun b => b ≠ 47)).reverse

/-- The node at `p`, if any: what Go's `os.Stat` describes when it succeeds.  The
error it returns otherwise is `statErrno`. -/
def Stat (fs : FS) (p : Str) : Option Node :=
  if isAmbient p then some Node.dir else fs.lookup p

/-- The prefixes of `p` that end right before a separator. -/
def cuts : Str → List Str
  | [] => []
  | c :: t => (if c = 47 then [[]] else []) ++ (cuts t).map (fun q => c :: q)

/-- The paths the kernel walks through on its way to `p`: the non-empty
prefixes of `p` that end right before a separator (for `data/users/a.json`:
`data` and `data/users`). -/
def ancestors (p : Str) : List Str := (cuts p).filter (fun q => q ≠ [])

/-- The path `p` names a regular file. -/
def isFile (fs : FS) (p : Str) : Bool :=
  match Stat fs p with
  | some (Node.file _) => true
  | _ => false

/-- The walk to `p` meets a regular file where it needs a directory.  In a file
tree nothing is stored below a regular file, so this is the case exactly when
some ancestor of `p` is a regular file. -/
def underFile (fs : FS) (p : Str) : Bool := (ancestors p).any (isFile fs)

/-- The error with which a call on `p` fails before it looks at what `p` names:
`EINVAL` for a path with a NUL byte (Go refuses it without a system call),
`ENOENT` for the empty path, `ENOTDIR` when the walk to `p` meets a regular
file. -/
def walkErrno (fs : FS) (p : Str) : Option Errno :=
  if p.contains 0 then some .EINVAL
  else if p = [] then some .ENOENT
  else if underFile fs p then some .ENOTDIR
  else none

/-- The error of a call on a path that names nothing: the error of the walk, or
`ENOENT` when the walk gets through. -/
def absentErrno (fs : FS) (p : Str) : Errno := (walkErrno fs p).getD .ENOENT

/-- The error of Go's `os.Stat`: `nil` when `p` names something. -/
def statErrno (fs : FS) (p : Str) : Option Errno :=
  match Stat fs p with
  | some _ => none
  | none => some (absentErrno fs p)

/-- Go's `os.Mkdir`: creates the directory `p`; fails when `p` exists or its parent
is not an existing directory. -/
def Mkdir (fs : FS) (p : Str) : Except Errno FS :=
  match walkErrno fs p with
  | some e => .error e
  | none =>
    match Stat fs p with
    | some _ => .error .EEXIST
    | none =>
      match Stat fs (parent p) with
      | some Node.dir => .ok (fs.insert p Node.dir)
      | some (Node.file _) => .error .ENOTDIR
      | none => .error .ENOENT

/-- The parent that `MkdirAll` recurses on: `path[:i]` for `i` the index of the
last separator before the last element (trailing separators skipped), the empty
string when there is no such separator. -/
def mkdirAllParent (p : Str) : Str :=
  match (p.reverse.dropWhile (fun b => b = 47)).dropWhile (fun b => b ≠ 47) with
  | [] => []
  | _ :: d => d.reverse

/-- Go's `os.MkdirAll`, with the recursion on the parent bounded by `fuel`: the
error, if any, and the file system it leaves (the directories made before a
failure stay).
Fast path: an existing directory is success, an existing file `ENOTDIR`.
Slow path: make the parent (when the path has one), then `Mkdir`. -/
def mkdirAllFuel : Nat → FS → Str → Option Errno × FS
  | 0, fs, _ => (some .EINVAL, fs)
  | fuel + 1, fs, p =>
    match Stat fs p with
    | some Node.dir => (none, fs)
    | some (Node.file _) => (some .ENOTDIR, fs)
    | none =>
      let made : Option Errno × FS :=
        if mkdirAllParent p = [] then (none, fs) else mkdirAllFuel fuel fs (mkdirAllParent p)
      match made with
      | (some e, fs1) => (some e, fs1)
      | (none, fs1) =>
        match Mkdir fs1 p with
        | .ok fs2 => (none, fs2)
        | .error e => if Stat fs1 p = some Node.dir then (none, fs1) else (some e, fs1)

/-- Go's `os.MkdirAll`.  Each recursive call is on a strictly shorter path, so
`length + 1` levels are enough. -/
def MkdirAll (fs : FS) (p : Str) : Option Errno × FS := mkdirAllFuel (p.length + 1) fs p

/-- Go's `os.WriteFile`: opens `p` with `O_WRONLY|O_CREATE|O_TRUNC` and writes
`data`.  An existing file is replaced in full; a new one needs its parent
directory to exist. -/
def WriteFile (fs : FS) (p : Str) (data : Str) : Except Errno FS :=
  match walkErrno fs p with
  | some e => .error e
  | none =>
    match Stat fs p with
    | some Node.dir => .error .EISDIR
    | some (Node.file _) => .ok (fs.insert p (Node.file data))
    | none =>
      match Stat fs (parent p) with
      | some Node.dir => .ok (fs.insert p (Node.file data))
      | some (Node.file _) => .error .ENOTDIR
      | none => .error .ENOENT

/-- Go's `os.ReadFile`: the content of the regular file at `p`. -/
def ReadFile (fs : FS) (p : Str) : Except Errno Str :=
  match Stat fs p with
  | some (Node.file data) => .ok data
  | some Node.dir => .error .EISDIR
  | none => .error (absentErrno fs p)

/-- The paths stored directly under the directory `p`. -/
def children (fs : FS) (p : Str) : List Str :=
  fs.keys.filter (fun q => !isAmbient q && parent q = p)

/-- Go's `os.Remove`: `unlink`, then `rmdir` when that fails; removes the file or
the empty directory at `p`.  Of the two errors it returns that of `rmdir`
unless that is `ENOTDIR`: for a path that names nothing both are the error of
the walk (`ENOTDIR` below a regular file, else `ENOENT`); for a directory that
of `rmdir` (`EINVAL` for `.`, `EBUSY` for the root, `ENOTEMPTY` for `..` and
for a directory with entries). -/
def Remove (fs : FS) (p : Str) : Except Errno FS :=
  match Stat fs p with
  | none => .error (absentErrno fs p)
  | some (Node.file _) => .ok (fs.erase p)
  | some Node.dir =>
    if isAmbient p then
      .error (if p = [46] then .EINVAL else if p = [47] then .EBUSY else .ENOTEMPTY)
    else if children fs p = [] then .ok (fs.erase p)
    else .error .ENOTEMPTY

/-- Byte-wise lexicographic order, the order of Go's string comparison. -/
def strLE : Str → Str → Bool
  | [], _ => true
  | _ :: _, [] => false
  | a :: as, b :: bs => a < b || (a = b && strLE as bs)

/-- The path of the entry `name` of the directory `p`. -/
def childPath (p name : Str) : Str :=
  if p = [46] then name
  else if p = [47] then 47 :: name
  else p ++ 47 :: name

/-- An `fs.DirEntry`: the entry's name and whether it is a directory. -/
structure DirEntry where
  Name : Str
  IsDir : Bool
  deriving DecidableEq, Repr

/-- Go's `os.ReadDir`: the entries of the directory `p`, sorted by file name. -/
def ReadDir (fs : FS) (p : Str) : Except Errno (List DirEntry) :=
  match Stat fs p with
  | none => .error (absentErrno fs p)
  | some (Node.file _) => .error .ENOTDIR
  | some Node.dir =>
    let names := List.insertionSort (fun a b => strLE a b = true) ((children fs p).map base)
    .ok (names.map (fun n => ⟨n, decide (Stat fs (childPath p n) = some Node.dir)⟩))

end os

/-! ## The record type -/

/-- Source: `type User struct`: eight string fields, in declaration order. -/
structure User where
  Name : Str
  Age : Str
  Contact : Str
  Company : Str
  City : Str
  State : Str
  Country : Str
  Zipcode : Str
  deriving DecidableEq, Repr

/-! ## Package `encoding/json` at the type `User` -/

namespace json

/-- The digit of `"0123456789abcdef"` at index `n`. -/
def hex (n : Nat) : Nat := if n < 10 then 48 + n else 87 + n

/-- How the encoder writes one ASCII byte inside a string literal (HTML
escaping on, as `Marshal` has it): `\\`, `\"`, `\b`, `\f`, `\n`, `\r`, `\t`,
`\u00XX` for the other control bytes and for `<`, `>`, `&`, and the byte itself
otherwise.  (Go before 1.22 writes `\u0008` and `\u000c` for `\b` and `\f`;
the decoder reads both forms as the same byte.) -/
def escapeByte (b : Nat) : Str :=
  if b = 92 ∨ b = 34 then [92, b]
  else if b = 8 then [92, 98]
  else if b = 12 then [92, 102]
  else if b = 10 then [92, 110]
  else if b = 13 then [92, 114]
  else if b = 9 then [92, 116]
  else if b < 0x20 ∨ b = 60 ∨ b = 62 ∨ b = 38 then [92, 117, 48, 48, hex (b / 16), hex (b % 16)]
  else [b]

/-- The loop of the encoder's `appendString`, between the two quotes.  A byte
that does not start a well-formed UTF-8 sequence is written as `\ufffd`;
U+2028 and U+2029 are written as `\u2028` and `\u2029`; every other
multi-byte rune is copied.  Each iteration consumes at least one byte, so
`fuel = len(src)` iterations are enough. -/
def appendStringLoop : Nat → Str → Str
  | 0, _ => []
  | _ + 1, [] => []
  | fuel + 1, b :: rest =>
    if b < 0x80 then escapeByte b ++ appendStringLoop fuel rest
    else
      let c := (utf8.DecodeRune (b :: rest)).1
      let size := (utf8.DecodeRune (b :: rest)).2
      if c = utf8.RuneError ∧ size = 1 then
        [92, 117, 102, 102, 102, 100] ++ appendStringLoop fuel rest
      else if c = 0x2028 ∨ c = 0x2029 then
        [92, 117, 50, 48, 50, hex (c % 16)] ++ appendStringLoop fuel ((b :: rest).drop size)
      else (b :: rest).take size ++ appendStringLoop fuel ((b :: rest).drop size)

/-- The encoder's `appendString`: `src` as a JSON string literal. -/
def appendString (src : Str) : Str := 34 :: appendStringLoop src.length src ++ [34]

/-- One member of the indented object: a line break, the indent of two
spaces, the quoted key, `": "` and the quoted value. -/
def member (key : Str) (value : Str) : Str :=
  [10, 32, 32, 34] ++ key ++ [34, 58, 32] ++ appendString value

/-- Go's `json.MarshalIndent(user, "", "  ")`: one member per field in declaration
order under the key of its tag, separated by commas.  A struct of strings
always encodes, so there is no error result. -/
def MarshalIndent (u : User) : Str :=
  [123] ++ member (lit "name") u.Name ++ [44] ++ member (lit "age") u.Age ++ [44]
    ++ member (lit "contact") u.Contact ++ [44] ++ member (lit "company") u.Company ++ [44]
    ++ member (lit "city") u.City ++ [44] ++ member (lit "state") u.State ++ [44]
    ++ member (lit "country") u.Country ++ [44] ++ member (lit "zipcode") u.Zipcode
    ++ [10, 125]

/-- The two ways `Unmarshal` fails: the input is not JSON, or a value has a
type the target cannot hold. -/
inductive Error where
  | SyntaxError
  | UnmarshalTypeError
  deriving DecidableEq, Repr

/-- What the decoder keeps of a value it has scanned.  Only a string can be
stored in a field of `User`, so the content of the other kinds is checked for
syntax and dropped. -/
inductive Value where
  | null
  | bool
  | number
  | string (s : Str)
  | array
  | object
  deriving DecidableEq, Repr

/-- JSON white space: space, tab, carriage return, line feed. -/
def isSpace (b : Nat) : Bool := b = 32 || b = 9 || b = 13 || b = 10

/-- Skips leading white space. -/
def skipSpace : Str → Str
  | [] => []
  | b :: rest => if isSpace b then skipSpace rest else b :: rest

/-- The value of a hexadecimal digit. -/
def hexVal (b : Nat) : Option Nat :=
  if 48 ≤ b ∧ b ≤ 57 then some (b - 48)
  else if 97 ≤ b ∧ b ≤ 102 then some (b - 87)
  else if 65 ≤ b ∧ b ≤ 70 then some (b - 55)
  else none

/-- The decoder's `getu4` on what follows `\u`: the value of four hexadecimal digits. -/
def getu4 : Str → Option Nat
  | a :: b :: c :: d :: _ =>
    match hexVal a, hexVal b, hexVal c, hexVal d with
    | some x, some y, some z, some w => some (x * 4096 + y * 256 + z * 16 + w)
    | _, _, _, _ => none
  | _ => none

/-- Go's `utf16.DecodeRune`: the rune of a surrogate pair, U+FFFD when the two
values are not a high surrogate followed by a low one. -/
def utf16DecodeRune (r1 r2 : Nat) : Nat :=
  if 0xD800 ≤ r1 ∧ r1 < 0xDC00 ∧ 0xDC00 ≤ r2 ∧ r2 < 0xE000 then
    (r1 - 0xD800) * 1024 + (r2 - 0xDC00) + 0x10000
  else utf8.RuneError

/-- The body of a string literal, from after the opening quote: the decoded
string and the input after the closing quote (the scanner's `stateInString`
together with `unquoteBytes`).  A control byte, an unknown escape or a missing
closing quote is a syntax error; ill-formed UTF-8 and unpaired surrogates are
replaced by U+FFFD.  Each iteration consumes at least one byte. -/
def unquoteLoop : Nat → Str → Option (Str × Str)
  | 0, _ => none
  | _ + 1, [] => none
  | fuel + 1, b :: rest =>
    if b = 34 then some ([], rest)
    else if b = 92 then
      match rest with
      | [] => none
      | c :: rest1 =>
        let simple (x : Nat) : Option (Str × Str) :=
          (unquoteLoop fuel rest1).map (fun r => (x :: r.1, r.2))
        if c = 34 ∨ c = 92 ∨ c = 47 then simple c
        else if c = 98 then simple 8
        else if c = 102 then simple 12
        else if c = 110 then simple 10
        else if c = 114 then simple 13
        else if c = 116 then simple 9
        else if c = 117 then
          match getu4 rest1 with
          | none => none
          | some rr =>
            let after := rest1.drop 4
            let pair : Option Nat :=
              if 0xD800 ≤ rr ∧ rr < 0xE000 then
                match after with
                | 92 :: 117 :: more =>
                  match getu4 more with
                  | some rr1 =>
                    if utf16DecodeRune rr rr1 ≠ utf8.RuneError then some (utf16DecodeRune rr rr1)
                    else none
                  | none => none
                | _ => none
              else none
            match pair with
            | some dec =>
              (unquoteLoop fuel (after.drop 6)).map (fun r => (utf8.AppendRune dec ++ r.1, r.2))
            | none =>
              let rr := if 0xD800 ≤ rr ∧ rr < 0xE000 then utf8.RuneError else rr
              (unquoteLoop fuel after).map (fun r => (utf8.AppendRune rr ++ r.1, r.2))
        else none
    else if b < 0x20 then none
    else if b < 0x80 then (unquoteLoop fuel rest).map (fun r => (b :: r.1, r.2))
    else
      let rr := (utf8.DecodeRune (b :: rest)).1
      let size := (utf8.DecodeRune (b :: rest)).2
      (unquoteLoop fuel ((b :: rest).drop size)).map (fun r => (utf8.AppendRune rr ++ r.1, r.2))

/-- A string literal from after its opening quote. -/
def unquote (input : Str) : Option (Str × Str) := unquoteLoop input.length input

/-- Skips a run of decimal digits. -/
def skipDigits : Str → Str
  | [] => []
  | b :: rest => if 48 ≤ b ∧ b ≤ 57 then skipDigits rest else b :: rest

/-- At least one decimal digit, then the rest of the run. -/
def digits1 : Str → Option Str
  | b :: rest => if 48 ≤ b ∧ b ≤ 57 then some (skipDigits rest) else none
  | [] => none

/-- A number: `-? (0 | [1-9][0-9]*) (. [0-9]+)? ([eE] [+-]? [0-9]+)?`; the
input after it. -/
def scanNumber (input : Str) : Option Str :=
  let unsigned := match input with
    | 45 :: rest => rest
    | _ => input
  let afterInt : Option Str := match unsigned with
    | 48 :: rest => some rest
    | b :: rest => if 49 ≤ b ∧ b ≤ 57 then some (skipDigits rest) else none
    | [] => none
  match afterInt with
  | none => none
  | some r =>
    let afterFrac : Option Str := match r with
      | 46 :: rest => digits1 rest
      | _ => some r
    match afterFrac with
    | none => none
    | some r1 =>
      match r1 with
      | e :: rest =>
        if e = 101 ∨ e = 69 then
          match rest with
          | sgn :: rest1 => if sgn = 43 ∨ sgn = 45 then digits1 rest1 else digits1 rest
          | [] => none
        else some r1
      | [] => some r1

/-- The elements of an array from after `[` and white space, the array not
being empty: values separated by commas up to the closing bracket.  `value`
scans one value. -/
def scanElements (value : Str → Option (Value × Str)) : Nat → Str → Option Str
  | 0, _ => none
  | fuel + 1, input =>
    match value input with
    | none => none
    | some (_, rest) =>
      match skipSpace rest with
      | 44 :: rest1 => scanElements value fuel (skipSpace rest1)
      | 93 :: rest1 => some rest1
      | _ => none

/-- The members of an object from after `{` and white space, the object not
being empty: `"key" : value` separated by commas up to the closing brace. -/
def scanMembers (value : Str → Option (Value × Str)) :
    Nat → Str → Option (List (Str × Value) × Str)
  | 0, _ => none
  | fuel + 1, input =>
    match input with
    | 34 :: rest =>
      match unquote rest with
      | none => none
      | some (key, rest1) =>
        match skipSpace rest1 with
        | 58 :: rest2 =>
          match value (skipSpace rest2) with
          | none => none
          | some (v, rest3) =>
            match skipSpace rest3 with
            | 44 :: rest4 =>
              (scanMembers value fuel (skipSpace rest4)).map (fun r => ((key, v) :: r.1, r.2))
            | 125 :: rest4 => some ([(key, v)], rest4)
            | _ => none
        | _ => none
    | _ => none

/-- The scanner's limit on nesting, `maxNestingDepth`. -/
def maxNestingDepth : Nat := 10000

/-- Scans one value at the head of `input` (white space already skipped).
`budget` is the number of nesting levels still allowed plus one: opening an
array or object inside the last allowed level is the scanner's "exceeded max
depth" error.  For an object the members are returned as well. -/
def scanValue : Nat → Str → Option ((Value × List (Str × Value)) × Str)
  | 0, _ => none
  | budget + 1, input =>
    let inner (s : Str) : Option (Value × Str) :=
      (scanValue budget s).map (fun r => (r.1.1, r.2))
    match input with
    | [] => none
    | b :: rest =>
      if b = 123 then
        if budget = 0 then none
        else match skipSpace rest with
          | 125 :: rest1 => some ((Value.object, []), rest1)
          | body =>
            (scanMembers inner body.length body).map (fun r => ((Value.object, r.1), r.2))
      else if b = 91 then
        if budget = 0 then none
        else match skipSpace rest with
          | 93 :: rest1 => some ((Value.array, []), rest1)
          | body => (scanElements inner body.length body).map (fun r => ((Value.array, []), r))
      else if b = 34 then (unquote rest).map (fun r => ((Value.string r.1, []), r.2))
      else if b = 45 ∨ (48 ≤ b ∧ b ≤ 57) then
        (scanNumber (b :: rest)).map (fun r => ((Value.number, []), r))
      else if b :: rest.take 3 = [116, 114, 117, 101] then some ((Value.bool, []), rest.drop 3)
      else if b :: rest.take 4 = [102, 97, 108, 115, 101] then some ((Value.bool, []), rest.drop 4)
      else if b :: rest.take 3 = [110, 117, 108, 108] then some ((Value.null, []), rest.drop 3)
      else none

/-- The whole input as one JSON text: white space, a value, white space. -/
def scanText (data : Str) : Option (Value × List (Str × Value)) :=
  match scanValue (maxNestingDepth + 1) (skipSpace data) with
  | none => none
  | some (v, rest) => if skipSpace rest = [] then some v else none

/-- The decoder's `foldName`, as far as it matters for comparing with an ASCII
field name: ASCII letters go to upper case, and the two other runes that fold
to an ASCII letter, U+017F (long s) and U+212A (Kelvin sign), go to `S` and
`K`.  Any other non-ASCII byte stays and matches no ASCII name. -/
def foldName : Str → Str
  | [] => []
  | 0xC5 :: 0xBF :: rest => 83 :: foldName rest
  | 0xE2 :: 0x84 :: 0xAA :: rest => 75 :: foldName rest
  | b :: rest => (if 97 ≤ b ∧ b ≤ 122 then b - 32 else b) :: foldName rest

/-- The fields of `User`, named by the key of their `json` tag. -/
inductive Field where
  | name | age | contact | company | city | state | country | zipcode
  deriving DecidableEq, Repr

/-- The key of a field. -/
def Field.key : Field → Str
  | .name => lit "name"
  | .age => lit "age"
  | .contact => lit "contact"
  | .company => lit "company"
  | .city => lit "city"
  | .state => lit "state"
  | .country => lit "country"
  | .zipcode => lit "zipcode"

/-- The fields in declaration order. -/
def fields : List Field :=
  [.name, .age, .contact, .company, .city, .state, .country, .zipcode]

/-- The field an object key selects: the one with exactly that key, or else the
first whose key is equal under folding. -/
def lookupField (key : Str) : Option Field :=
  match fields.find? (fun f => f.key = key) with
  | some f => some f
  | none => fields.find? (fun f => foldName f.key = foldName key)

/-- Stores a string into a field. -/
def setField (u : User) (f : Field) (s : Str) : User :=
  match f with
  | .name => { u with Name := s }
  | .age => { u with Age := s }
  | .contact => { u with Contact := s }
  | .company => { u with Company := s }
  | .city => { u with City := s }
  | .state => { u with State := s }
  | .country => { u with Country := s }
  | .zipcode => { u with Zipcode := s }

/-- Decodes the members of an object into `u`, in input order.  A member of an
unknown key is skipped; `null` leaves the field as it is; a value that is not
a string is a type error, which is remembered while decoding goes on. -/
def storeMembers : List (Str × Value) → User × Bool → User × Bool
  | [], acc => acc
  | (key, v) :: ms, (u, bad) =>
    match lookupField key with
    | none => storeMembers ms (u, bad)
    | some f =>
      match v with
      | Value.string s => storeMembers ms (setField u f s, bad)
      | Value.null => storeMembers ms (u, bad)
      | _ => storeMembers ms (u, true)

/-- Go's `json.Unmarshal(data, &user)` for a zero `user`.  The input is first
checked as a whole; then an object is decoded member by member, `null` leaves
the zero value, and any other top-level value is a type error. -/
def Unmarshal (data : Str) : Except Error User :=
  match scanText data with
  | none => .error .SyntaxError
  | some (Value.object, members) =>
    match storeMembers members (⟨[], [], [], [], [], [], [], []⟩, false) with
    | (u, false) => .ok u
    | (_, true) => .error .UnmarshalTypeError
  | some (Value.null, _) => .ok ⟨[], [], [], [], [], [], [], []⟩
  | some _ => .error .UnmarshalTypeError

end json

/-! ## Valid UTF-8 and the coercion the encoder applies -/

namespace utf8

/-- The loop of `utf8.ValidString`: no position decodes to `(RuneError, 1)`. -/
def validLoop : Nat → Str → Bool
  | 0, s => s.isEmpty
  | _ + 1, [] => true
  | fuel + 1, b :: rest =>
    if (DecodeRune (b :: rest)).1 = RuneError ∧ (DecodeRune (b :: rest)).2 = 1 then false
    else validLoop fuel ((b :: rest).drop (DecodeRune (b :: rest)).2)

/-- Go's `utf8.ValidString`: the string consists entirely of well-formed UTF-8. -/
def ValidString (s : Str) : Bool := validLoop s.length s

end utf8

namespace json

/-- A string as the encoder sees it, rune by rune: every byte that does not
start a well-formed UTF-8 sequence becomes U+FFFD. -/
def coerceLoop : Nat → Str → Str
  | 0, _ => []
  | _ + 1, [] => []
  | fuel + 1, b :: rest =>
    utf8.AppendRune (utf8.DecodeRune (b :: rest)).1
      ++ coerceLoop fuel ((b :: rest).drop (utf8.DecodeRune (b :: rest)).2)

/-- The string `Marshal` writes for `s`, decoded: `s` coerced to valid UTF-8. -/
def coerce (s : Str) : Str := coerceLoop s.length s


/-- The members of an indented object from the first key on: what
`MarshalIndent` writes after `{`, the line break and the first indent. -/
def membersBody : List (Str × Str) → Str
  | [] => []
  | [(k, v)] => 34 :: k ++ [34, 58, 32] ++ appendString v ++ [10, 125]
  | (k, v) :: more =>
    34 :: k ++ [34, 58, 32] ++ appendString v ++ [44, 10, 32, 32] ++ membersBody more

/-- A key that is written between quotes as it is and read back as it is. -/
def PlainKey (k : Str) : Prop := appendStringLoop k.length k = k ∧ coerce k = k

/-- Each field coerced to valid UTF-8: the record that the text written by
`MarshalIndent` describes. -/
def coerceUser (u : User) : User :=
  ⟨coerce u.Name, coerce u.Age, coerce u.Contact, coerce u.Company, coerce u.City,
    coerce u.State, coerce u.Country, coerce u.Zipcode⟩

/-- All eight fields are valid UTF-8. -/
def ValidUser (u : User) : Prop :=
  utf8.ValidString u.Name = true ∧ utf8.ValidString u.Age = true ∧
  utf8.ValidString u.Contact = true ∧ utf8.ValidString u.Company = true ∧
  utf8.ValidString u.City = true ∧ utf8.ValidString u.State = true ∧
  utf8.ValidString u.Country = true ∧ utf8.ValidString u.Zipcode = true

end json

/-! ## `main.go`: the driver -/

/-- The errors the driver returns.  Go builds them with `fmt.Errorf`; the
constructor stands for the format string and carries the wrapped cause. -/
inductive DriverError where
  /-- Format `"missing collection or resource"` -/
  | missingKey
  /-- An error of `os.MkdirAll` or `os.WriteFile`, returned as it is. -/
  | io (e : os.Errno)
  /-- Format `"could not read file: %v"` -/
  | couldNotReadFile (e : os.Errno)
  /-- Format `"could not delete file: %v"` -/
  | couldNotDeleteFile (e : os.Errno)
  /-- An error of `json.Unmarshal`, returned as it is. -/
  | decode (e : json.Error)
  /-- Format `"unable to create database directory: %v"` -/
  | unableToCreateDirectory (e : os.Errno)
  deriving DecidableEq, Repr

/-- Source: `type Driver struct`: the root directory and the map from collection name
to mutex (a `*sync.Mutex` is its address). -/
structure Driver where
  dir : Str
  mutexes : AList (fun _ : Str => Nat)
  deriving DecidableEq

/-- The state the driver's methods run in: the driver itself, the file system,
and the number of mutexes allocated so far (the address the next
`&sync.Mutex{}` gets). -/
structure World where
  db : Driver
  fs : os.FS
  allocated : Nat
  deriving DecidableEq

/-- Source: `func New(dir string) (*Driver, error)`, in a fresh process on the file
system `fs`.  The directory is made only when `os.Stat` fails with an error that
`os.IsNotExist` accepts, which is `ENOENT`; with any other outcome of `os.Stat`
the driver is returned as it is. -/
def New (fs : os.FS) (dir : Str) : Except DriverError World :=
  let dir := filepath.Clean dir
  let driver : Driver := { dir := dir, mutexes := ∅ }
  if os.statErrno fs dir = some .ENOENT then
    match os.MkdirAll fs dir with
    | (some err, _) => .error (.unableToCreateDirectory err)
    | (none, fs1) => .ok { db := driver, fs := fs1, allocated := 0 }
  else .ok { db := driver, fs := fs, allocated := 0 }

/-- Source: `func (d *Driver) getOrCreateMutex(collection string) *sync.Mutex`:
stores a new mutex under `collection` and returns it. -/
def Driver.getOrCreateMutex (w : World) (collection : Str) : Nat × World :=
  let fresh := w.allocated
  let w1 : World :=
    { w with db := { w.db with mutexes := w.db.mutexes.insert collection fresh },
             allocated := w.allocated + 1 }
  ((w1.db.mutexes.lookup collection).getD fresh, w1)

/-- Source: `func (d *Driver) Write(collection, resource string, v interface{}) error`
at `v : User`: the error (`none` for `nil`) and the state after the call. -/
def Driver.Write (w : World) (collection resource : Str) (v : User) :
    Option DriverError × World :=
  if collection = [] ∨ resource = [] then (some .missingKey, w)
  else
    -- mutex.Lock(); defer mutex.Unlock()
    let w1 := (Driver.getOrCreateMutex w collection).2
    let dir := filepath.Join [w1.db.dir, collection]
    match os.MkdirAll w1.fs dir with
    | (some err, fs1) => (some (.io err), { w1 with fs := fs1 })
    | (none, fs1) =>
      let filePath := filepath.Join [dir, resource ++ lit ".json"]
      let data := json.MarshalIndent v
      match os.WriteFile fs1 filePath data with
      | .error err => (some (.io err), { w1 with fs := fs1 })
      | .ok fs2 => (none, { w1 with fs := fs2 })

/-- Source: `func (d *Driver) Read(collection, resource string, v interface{}) error`
at `v : *User` pointing to a zero `User`: the error, or the decoded record. -/
def Driver.Read (w : World) (collection resource : Str) : Except DriverError User :=
  if collection = [] ∨ resource = [] then .error .missingKey
  else
    let filePath := filepath.Join [w.db.dir, collection, resource ++ lit ".json"]
    match os.ReadFile w.fs filePath with
    | .error err => .error (.couldNotReadFile err)
    | .ok data =>
      match json.Unmarshal data with
      | .error err => .error (.decode err)
      | .ok user => .ok user

/-- Source: `func (d *Driver) Delete(collection, resource string) error`. -/
def Driver.Delete (w : World) (collection resource : Str) : Option DriverError × World :=
  let filePath := filepath.Join [w.db.dir, collection, resource ++ lit ".json"]
  match os.Remove w.fs filePath with
  | .error err => (some (.couldNotDeleteFile err), w)
  | .ok fs1 => (none, { w with fs := fs1 })

/-! ## `main.go`: the controllers -/

/-- The text a controller sends, by format string, with the value formatted
into it. -/
inductive Message where
  /-- Format `"Error parsing body: %v"` -/
  | errorParsingBody
  /-- Format `"Error saving user: %v"` -/
  | errorSavingUser (err : DriverError)
  /-- Format `"User not found: %v"` -/
  | userNotFound (err : DriverError)
  /-- Format `"Error reading users directory: %v"` -/
  | errorReadingUsersDirectory (err : os.Errno)
  /-- Format `"Error deleting user: %v"` -/
  | errorDeletingUser (err : DriverError)
  /-- Format `"User '%s' deleted"` -/
  | userDeleted (name : Str)
  deriving DecidableEq, Repr

/-- What a response carries: a text, one record, or a list of records. -/
inductive Body where
  | text (msg : Message)
  | user (u : User)
  | users (us : List User)
  deriving DecidableEq, Repr

/-- An HTTP response: status code and body. -/
structure Response where
  status : Nat
  body : Body
  deriving DecidableEq, Repr

/-- The status `fiber.StatusOK`. -/
def StatusOK : Nat := 200

/-- The status `fiber.StatusCreated`. -/
def StatusCreated : Nat := 201

/-- The status `fiber.StatusBadRequest`. -/
def StatusBadRequest : Nat := 400

/-- The status `fiber.StatusNotFound`. -/
def StatusNotFound : Nat := 404

/-- The status `fiber.StatusInternalServerError`. -/
def StatusInternalServerError : Nat := 500

/-- Source: `CreateUser(db)`, the handler of `POST /users`.  `parsed` is what
`c.BodyParser(&user)` makes of the request body: `none` when it fails. -/
def CreateUser (w : World) (parsed : Option User) : Response × World :=
  match parsed with
  | none => (⟨StatusBadRequest, .text .errorParsingBody⟩, w)
  | some user =>
    match Driver.Write w (lit "users") user.Name user with
    | (some err, w1) => (⟨StatusInternalServerError, .text (.errorSavingUser err)⟩, w1)
    | (none, w1) => (⟨StatusCreated, .user user⟩, w1)

/-- Source: `GetUser(db)`, the handler of `GET /users/:name`. -/
def GetUser (w : World) (name : Str) : Response :=
  match Driver.Read w (lit "users") name with
  | .error err => ⟨StatusNotFound, .text (.userNotFound err)⟩
  | .ok user => ⟨StatusOK, .user user⟩

/-- The body of the loop of `GetAllUsers`: `users` after the entry `file`. -/
def getAllUsersStep (w : World) (users : List User) (file : os.DirEntry) : List User :=
  if file.IsDir ∨ filepath.Ext file.Name ≠ lit ".json" then users
  else
    let name := file.Name.take (file.Name.length - (lit ".json").length)
    match Driver.Read w (lit "users") name with
    | .ok user => users ++ [user]
    | .error _ => users

/-- Source: `GetAllUsers(db)`, the handler of `GET /users`. -/
def GetAllUsers (w : World) : Response :=
  let dirPath := filepath.Join [w.db.dir, lit "users"]
  match os.ReadDir w.fs dirPath with
  | .error err => ⟨StatusInternalServerError, .text (.errorReadingUsersDirectory err)⟩
  | .ok files => ⟨StatusOK, .users (files.foldl (getAllUsersStep w) [])⟩

/-- Source: `DeleteUser(db)`, the handler of `DELETE /users/:name`. -/
def DeleteUser (w : World) (name : Str) : Response × World :=
  match Driver.Delete w (lit "users") name with
  | (some err, w1) => (⟨StatusNotFound, .text (.errorDeletingUser err)⟩, w1)
  | (none, w1) => (⟨StatusOK, .text (.userDeleted name)⟩, w1)

/-! ## Notions the properties are stated with -/

/-- The path of the artifact of `(collection, resource)` under the root of the
driver, as `Read` and `Delete` compute it. -/
def artifactPath (w : World) (collection resource : Str) : Str :=
  filepath.Join [w.db.dir, collection, resource ++ lit ".json"]

/-- The directory of the `users` collection, as `GetAllUsers` computes it. -/
def usersDir (w : World) : Str := filepath.Join [w.db.dir, lit "users"]

/-- The path `path` lies inside the directory `dir`. -/
def liesInside (dir path : Str) : Bool := (dir ++ [filepath.Separator]).isPrefixOf path

/-- The failure says that the resource does not exist: the file could not be
read, or removed, because no file has that name. -/
def DriverError.isAbsent : DriverError → Bool
  | .couldNotReadFile .ENOENT => true
  | .couldNotDeleteFile .ENOENT => true
  | _ => false

/-- The record `GetAllUsers` returns for a directory entry, if any: the entry
is a file, its extension is `.json`, its name is more than the extension, and
the content of the file decodes. -/
def entryRecord (w : World) (e : os.DirEntry) : Option User :=
  if e.IsDir ∨ filepath.Ext e.Name ≠ lit ".json" ∨ e.Name = lit ".json" then none
  else match os.ReadFile w.fs (usersDir w ++ filepath.Separator :: e.Name) with
    | .ok data => (json.Unmarshal data).toOption
    | .error _ => none

/-- The record of a directory entry in the words of the specification: the
entry is a file, its extension is `.json`, and the content of the file
decodes. -/
def entryRecordAsSpecified (w : World) (e : os.DirEntry) : Option User :=
  if e.IsDir ∨ filepath.Ext e.Name ≠ lit ".json" then none
  else match os.ReadFile w.fs (usersDir w ++ filepath.Separator :: e.Name) with
    | .ok data => (json.Unmarshal data).toOption
    | .error _ => none

/-- The entries of the `users` directory; none when it cannot be listed. -/
def usersEntries (w : World) : List os.DirEntry :=
  match os.ReadDir w.fs (usersDir w) with
  | .ok files => files
  | .error _ => []

/-- The store of `main`: `New("./data")` in a directory that has no `data`
yet. -/
def freshStore : World :=
  { db := { dir := lit "data", mutexes := ∅ },
    fs := (∅ : os.FS).insert (lit "data") os.Node.dir,
    allocated := 0 }

/-- A record named `name`, the other fields fixed. -/
def sampleUser (name : String) : User :=
  ⟨lit name, lit "30", lit "555-0100", lit "Acme", lit "Pune", lit "MH", lit "IN", lit "411001"⟩

/-- A record whose `Age` is the single byte `0xFF`, which is not UTF-8. -/
def rawByteUser : User := { sampleUser "a" with Age := [0xFF] }

/-- A store whose `users` directory holds one file, named `.json` (the bare
extension), with the encoding of a record as its content. -/
def bareExtensionStore : World :=
  { db := { dir := lit "data", mutexes := ∅ },
    fs := (((∅ : os.FS).insert (lit "data") os.Node.dir).insert (lit "data/users")
      os.Node.dir).insert (lit "data/users/.json")
        (os.Node.file (json.MarshalIndent (sampleUser "z"))),
    allocated := 0 }

/-- The state after `Write("users", u.Name, u)`. -/
def afterCreate (w : World) (u : User) : World := (Driver.Write w (lit "users") u.Name u).2

namespace filepath

theorem elements_ne_nil (p : Str) : elements p ≠ [] := by
  cases p with
  | nil => simp [elements]
  | cons b rest =>
    unfold elements
    split
    · simp
    · split <;> simp

theorem elements_append_sep (x y : Str) :
    elements (x ++ Separator :: y) = elements x ++ elements y := by
  induction x with
  | nil => simp [elements]
  | cons b x ih =>
    by_cases hb : b = Separator
    · simp [elements, hb, ih]
    · have hne := elements_ne_nil x
      cases hx : elements x with
      | nil => exact absurd hx hne
      | cons e es => simp [elements, hb, ih, hx]

theorem elements_of_noSep {e : Str} (h : Separator ∉ e) : elements e = [e] := by
  induction e with
  | nil => simp [elements]
  | cons b e ih =>
    have hb : b ≠ Separator := fun hb => h (by simp [hb])
    have he : Separator ∉ e := fun he => h (by simp [he])
    simp [elements, hb, ih he]

theorem elements_joinElements {l : List Str} (hl : l ≠ []) (h : ∀ e ∈ l, Separator ∉ e) :
    elements (joinElements l) = l := by
  induction l with
  | nil => exact absurd rfl hl
  | cons e es ih =>
    cases es with
    | nil => simpa [joinElements] using elements_of_noSep (h e (by simp))
    | cons e2 es =>
      have h1 := elements_of_noSep (h e (by simp))
      have h2 := ih (by simp) (fun x hx => h x (by simp [hx]))
      simp only [joinElements, elements_append_sep, h1, h2]
      simp

theorem mem_elements_noSep (p : Str) : ∀ e ∈ elements p, Separator ∉ e := by
  induction p with
  | nil => simp [elements]
  | cons b rest ih =>
    intro e he
    by_cases hb : b = Separator
    · simp [elements, hb] at he
      rcases he with rfl | he
      · simp
      · exact ih e he
    · cases hx : elements rest with
      | nil => exact absurd hx (elements_ne_nil rest)
      | cons e1 es =>
        simp [elements, hb, hx] at he
        rcases he with rfl | he
        · have := ih e1 (by simp [hx])
          intro hmem
          simp at hmem
          rcases hmem with h1 | h1
          · exact hb h1.symm
          · exact this h1
        · exact ih e (by simp [hx, he])

theorem Normal.tail {r : Bool} {e : Str} {out : List Str} (h : Normal r (e :: out)) :
    Normal r out := h.2.2.2.2

theorem cleanStep_normal {r : Bool} {out : List Str} {e : Str} (h : Normal r out)
    (he : Separator ∉ e) : Normal r (cleanStep r out e) := by
  unfold cleanStep
  split
  · exact h
  · rename_i h1
    simp only [not_or] at h1
    split
    · rename_i h2
      cases out with
      | nil =>
        cases r <;> simp [Normal, h2]
      | cons top below =>
        by_cases ht : top = [46, 46]
        · have hr := (h.2.2.2.1 ht).1
          subst hr
          simp only [ht, if_true]
          refine ⟨by simp [h2], by simp [h2], by simp [h2], ?_, ?_⟩
          · intro _
            exact ⟨rfl, by simp⟩
          · rw [← ht]; exact h
        · simp only [ht, if_false]
          exact h.tail
    · rename_i h2
      exact ⟨h1.1, he, h1.2, fun h3 => absurd h3 h2, h⟩

theorem foldl_cleanStep_normal {r : Bool} (l : List Str) (hl : ∀ e ∈ l, Separator ∉ e) :
    ∀ out, Normal r out → Normal r (l.foldl (cleanStep r) out) := by
  induction l with
  | nil => intro out h; exact h
  | cons e es ih =>
    intro out h
    exact ih (fun x hx => hl x (by simp [hx])) _ (cleanStep_normal h (hl e (by simp)))

theorem cleaned_normal (p : Str) : Normal (isRooted p) (cleaned p) :=
  foldl_cleanStep_normal _ (mem_elements_noSep p) [] trivial

theorem cleanStep_push {r : Bool} {out : List Str} {e : Str} (h : Normal r (e :: out)) :
    cleanStep r out e = e :: out := by
  obtain ⟨h1, _, h3, h4, _⟩ := h
  unfold cleanStep
  rw [if_neg (by simp [h1, h3])]
  split
  · rename_i h5
    obtain ⟨hr, ht⟩ := h4 h5
    cases out with
    | nil => simp [hr]
    | cons top below =>
      have := ht top (by simp)
      simp [this, hr]
  · rfl

theorem foldl_reverse_normal {r : Bool} : ∀ out : List Str, Normal r out →
    out.reverse.foldl (cleanStep r) [] = out := by
  intro out
  induction out with
  | nil => intro _; rfl
  | cons e out ih =>
    intro h
    rw [List.reverse_cons, List.foldl_append, ih h.tail]
    simp [cleanStep_push h]

theorem Normal.noSep {r : Bool} : ∀ {out : List Str}, Normal r out →
    ∀ e ∈ out, Separator ∉ e := by
  intro out
  induction out with
  | nil => intro _ e he; simp at he
  | cons e0 out ih =>
    intro h e he
    simp at he
    rcases he with rfl | he
    · exact h.2.1
    · exact ih h.tail e he

theorem foldl_elements_render {r : Bool} {out : List Str} (h : Normal r out) :
    (elements (render r out)).foldl (cleanStep r) [] = out := by
  by_cases ho : out = []
  · subst ho
    cases r <;> simp [render, elements, joinElements, cleanStep]
  · have hrev : out.reverse ≠ [] := by simpa using ho
    have hns : ∀ e ∈ out.reverse, Separator ∉ e := fun e he => h.noSep e (by simpa using he)
    cases r with
    | false =>
      simp only [render, ho, if_false, Bool.false_eq_true]
      rw [elements_joinElements hrev hns]
      exact foldl_reverse_normal out h
    | true =>
      simp only [render, if_true]
      have : elements (Separator :: joinElements out.reverse) = [] :: out.reverse := by
        simp [elements, elements_joinElements hrev hns]
      rw [this]
      simp only [List.foldl_cons]
      have : cleanStep true [] [] = [] := by simp [cleanStep]
      rw [this]
      exact foldl_reverse_normal out h

theorem joinElements_head {l : List Str} (hl : l ≠ []) (h : ∀ e ∈ l, e ≠ [] ∧ Separator ∉ e) :
    (joinElements l).head? ≠ some Separator ∧ joinElements l ≠ [] := by
  cases l with
  | nil => exact absurd rfl hl
  | cons e es =>
    obtain ⟨h1, h2⟩ := h e (by simp)
    cases e with
    | nil => exact absurd rfl h1
    | cons b e =>
      have hb : b ≠ Separator := fun hb => h2 (by simp [hb])
      cases es with
      | nil => simp [joinElements, hb]
      | cons e2 es => simp [joinElements, hb]

theorem Normal.ne_nil {r : Bool} : ∀ {out : List Str}, Normal r out →
    ∀ e ∈ out, e ≠ [] ∧ Separator ∉ e := by
  intro out
  induction out with
  | nil => intro _ e he; simp at he
  | cons e0 out ih =>
    intro h e he
    simp at he
    rcases he with rfl | he
    · exact ⟨h.1, h.2.1⟩
    · exact ih h.tail e he

theorem render_ne_nil (r : Bool) (out : List Str) (h : Normal r out) : render r out ≠ [] := by
  by_cases ho : out = []
  · subst ho; cases r <;> simp [render]
  · cases r with
    | true => simp [render]
    | false =>
      simp only [render, ho, if_false, Bool.false_eq_true]
      exact (joinElements_head (by simpa using ho)
        (fun e he => h.ne_nil e (by simpa using he))).2

theorem isRooted_render {r : Bool} {out : List Str} (h : Normal r out) :
    isRooted (render r out) = r := by
  by_cases ho : out = []
  · subst ho; cases r <;> simp [render, isRooted]
  · cases r with
    | true => simp [render, isRooted]
    | false =>
      simp only [render, ho, if_false, Bool.false_eq_true, isRooted]
      have := (joinElements_head (l := out.reverse) (by simpa using ho)
        (fun e he => h.ne_nil e (by simpa using he))).1
      simpa using this

theorem Clean_eq (p : Str) : Clean p = render (isRooted p) (cleaned p) := by
  unfold Clean
  split
  · rename_i h; subst h; simp [render, cleaned, isRooted, elements, cleanStep]
  · rfl

theorem isRooted_append {x : Str} (hx : x ≠ []) (y : Str) : isRooted (x ++ y) = isRooted x := by
  cases x with
  | nil => exact absurd rfl hx
  | cons b x => simp [isRooted]

theorem cleaned_append_sep {x : Str} (hx : x ≠ []) (y : Str) :
    cleaned (x ++ Separator :: y) = (elements y).foldl (cleanStep (isRooted x)) (cleaned x) := by
  simp only [cleaned, isRooted_append hx, elements_append_sep, List.foldl_append]

theorem cleaned_Clean (p : Str) : cleaned (Clean p) = cleaned p := by
  have h := cleaned_normal p
  rw [Clean_eq]
  show (elements (render (isRooted p) (cleaned p))).foldl
      (cleanStep (isRooted (render (isRooted p) (cleaned p)))) [] = cleaned p
  rw [isRooted_render h]
  exact foldl_elements_render h

theorem isRooted_Clean (p : Str) : isRooted (Clean p) = isRooted p := by
  rw [Clean_eq]; exact isRooted_render (cleaned_normal p)

theorem Clean_ne_nil (p : Str) : Clean p ≠ [] := by
  rw [Clean_eq]; exact render_ne_nil _ _ (cleaned_normal p)

/-- Cleaning a prefix first does not change the result of cleaning the whole. -/
theorem Clean_Clean_append {x : Str} (hx : x ≠ []) (y : Str) :
    Clean (Clean x ++ Separator :: y) = Clean (x ++ Separator :: y) := by
  rw [Clean_eq (Clean x ++ Separator :: y), Clean_eq (x ++ Separator :: y)]
  rw [cleaned_append_sep (Clean_ne_nil x), cleaned_append_sep hx,
    isRooted_append (Clean_ne_nil x), isRooted_append hx, isRooted_Clean, cleaned_Clean]

/-- Nested joins flatten, `Join(Join(a, b), c) = Join(a, b, c)`: the path `Write` builds in two steps
is the one `Read` and `Delete` build in one. -/
theorem Join_Join (a b c : Str) (hb : b ≠ []) : Join [Join [a, b], c] = Join [a, b, c] := by
  by_cases ha : a = []
  · subst ha
    have h1 : Join [[], b] = Clean b := by simp [Join, hb, joinElements]
    have h2 : Join [[], b, c] = Clean (b ++ Separator :: c) := by simp [Join, hb, joinElements]
    rw [h1, h2]
    simp only [Join, Clean_ne_nil, if_false, joinElements]
    exact Clean_Clean_append hb c
  · have h1 : Join [a, b] = Clean (a ++ Separator :: b) := by simp [Join, ha, joinElements]
    have h2 : Join [a, b, c] = Clean ((a ++ Separator :: b) ++ Separator :: c) := by
      simp [Join, ha, joinElements]
    rw [h1, h2]
    simp only [Join, Clean_ne_nil, if_false, joinElements]
    exact Clean_Clean_append (by simp) c

theorem joinElements_append_singleton {l : List Str} (hl : l ≠ []) (e : Str) :
    joinElements (l ++ [e]) = joinElements l ++ Separator :: e := by
  induction l with
  | nil => exact absurd rfl hl
  | cons a l ih =>
    cases l with
    | nil => simp [joinElements]
    | cons b l =>
      have := ih (by simp)
      simp only [List.cons_append] at this ⊢
      simp only [joinElements, this, List.append_assoc, List.cons_append]

theorem render_cons (r : Bool) (out : List Str) (e : Str) :
    render r (e :: out) = stem r out ++ e := by
  by_cases ho : out = []
  · subst ho
    cases r <;> simp [render, stem, joinElements]
  · have hrev : out.reverse ≠ [] := by simpa using ho
    cases r <;>
      simp [render, stem, ho, List.reverse_cons, joinElements_append_singleton hrev]

theorem IsName.normal {r : Bool} {out : List Str} {e : Str} (he : IsName e)
    (h : Normal r out) : Normal r (e :: out) :=
  ⟨he.1, he.2.1, he.2.2.1, fun h2 => absurd h2 he.2.2.2, h⟩

theorem cleaned_append_name {x : Str} (hx : x ≠ []) {e : Str} (he : IsName e) :
    cleaned (x ++ Separator :: e) = e :: cleaned x := by
  rw [cleaned_append_sep hx, elements_of_noSep he.2.1]
  simp only [List.foldl_cons, List.foldl_nil]
  have := cleaned_normal x
  exact cleanStep_push (he.normal this)

theorem cleaned_name {e : Str} (he : IsName e) : cleaned e = [e] ∧ isRooted e = false := by
  have hr : isRooted e = false := by
    obtain ⟨h1, h2, _, _⟩ := he
    cases e with
    | nil => exact absurd rfl h1
    | cons b e =>
      have : b ≠ Separator := fun hb => h2 (by simp [hb])
      simp [isRooted, this]
  refine ⟨?_, hr⟩
  simp only [cleaned, hr, elements_of_noSep he.2.1, List.foldl_cons, List.foldl_nil]
  exact cleanStep_push (he.normal (show Normal false [] from trivial))

/-- The path `Join(dir, c)` for a plain name `c`: the stem of `dir`, then `c`. -/
theorem Join_two (dir : Str) {c : Str} (hc : IsName c) : Join [dir, c] = joinStem dir ++ c := by
  by_cases hd : dir = []
  · subst hd
    have h1 : Join [[], c] = Clean c := by simp [Join, hc.1, joinElements]
    rw [h1, Clean_eq, (cleaned_name hc).1, (cleaned_name hc).2]
    simp [render, joinStem, joinElements]
  · have h1 : Join [dir, c] = Clean (dir ++ Separator :: c) := by simp [Join, hd, joinElements]
    rw [h1, Clean_eq, cleaned_append_name hd hc, isRooted_append hd, render_cons]
    simp [joinStem, hd]

/-- The path `Join(dir, c, e)` for plain names `c` and `e`: the stem of `dir`, then
`c/e`. -/
theorem Join_three (dir : Str) {c e : Str} (hc : IsName c) (he : IsName e) :
    Join [dir, c, e] = joinStem dir ++ c ++ Separator :: e := by
  rw [← Join_Join dir c e hc.1, Join_two dir hc]
  have hne : joinStem dir ++ c ≠ [] := by simp [hc.1]
  have h1 : Join [joinStem dir ++ c, e] = Clean ((joinStem dir ++ c) ++ Separator :: e) := by
    simp [Join, hc.1, joinElements]
  have h2 : Clean (joinStem dir ++ c) = joinStem dir ++ c := by
    rw [← Join_two dir hc]
    by_cases hd : dir = []
    · subst hd
      have : Join [[], c] = Clean c := by simp [Join, hc.1, joinElements]
      rw [this, Clean_eq c, Clean_eq, isRooted_render (cleaned_normal c)]
      have := cleaned_Clean c
      rw [Clean_eq] at this
      rw [this]
    · have : Join [dir, c] = Clean (dir ++ Separator :: c) := by simp [Join, hd, joinElements]
      rw [this]
      have h3 := cleaned_Clean (dir ++ Separator :: c)
      have h4 := isRooted_Clean (dir ++ Separator :: c)
      rw [Clean_eq (Clean _), h3, h4, ← Clean_eq]
  rw [h1, Clean_eq, cleaned_append_name hne he, isRooted_append hne, render_cons]
  have h5 : render (isRooted (joinStem dir ++ c)) (cleaned (joinStem dir ++ c))
      = joinStem dir ++ c := by rw [← Clean_eq, h2]
  have h6 : cleaned (joinStem dir ++ c) ≠ [] := by
    intro h0
    rw [h0] at h5
    have hc' := hc
    obtain ⟨hc1, hc2, hc3, _⟩ := hc'
    cases hr : isRooted (joinStem dir ++ c) <;> rw [hr] at h5 <;>
      simp [render, joinElements] at h5
    · -- "." = stem ++ c
      rcases List.append_eq_cons_iff.mp h5.symm with ⟨_, h8⟩ | ⟨a, h7, h8⟩
      · exact hc3 h8
      · have : c = [] := by
          have := congrArg List.length h8
          simp at this
          exact List.eq_nil_of_length_eq_zero (by omega)
        exact hc1 this
    · rcases List.append_eq_cons_iff.mp h5.symm with ⟨_, h8⟩ | ⟨a, h7, h8⟩
      · exact hc2 (by rw [h8]; simp)
      · have : c = [] := by
          have := congrArg List.length h8
          simp at this
          exact List.eq_nil_of_length_eq_zero (by omega)
        exact hc1 this
  simp only [stem, h6, if_false, h5, List.append_assoc, List.singleton_append]

theorem IsName_json {r : Str} (h : Separator ∉ r) : IsName (r ++ [46, 106, 115, 111, 110]) := by
  refine ⟨by simp, ?_, ?_, ?_⟩
  · simp [h]
  · intro h1
    have := congrArg List.length h1
    simp at this
  · intro h1
    have := congrArg List.length h1
    simp at this

/-- Two paths `a/b` with separator-free first elements are equal only if both
parts are. -/
theorem split_unique : ∀ {a a1 : Str} {b b1 : Str}, Separator ∉ a → Separator ∉ a1 →
    a ++ Separator :: b = a1 ++ Separator :: b1 → a = a1 ∧ b = b1 := by
  intro a
  induction a with
  | nil =>
    intro a1 b b1 _ h1 h
    cases a1 with
    | nil => simpa using h
    | cons x a1 =>
      simp at h
      exact absurd (by simp [h.1]) h1
  | cons x a ih =>
    intro a1 b b1 h0 h1 h
    cases a1 with
    | nil =>
      simp at h
      exact absurd (by simp [h.1]) h0
    | cons y a1 =>
      simp only [List.cons_append, List.cons.injEq] at h
      obtain ⟨hxy, h⟩ := h
      have := ih (fun hm => h0 (by simp [hm])) (fun hm => h1 (by simp [hm])) h
      exact ⟨by rw [hxy, this.1], this.2⟩

end filepath

/-! ## Facts about `utf8` -/

namespace utf8

theorem DecodeRune_two {b0 b1 : Nat} (t : Str) (h0 : 0xC2 ≤ b0 ∧ b0 ≤ 0xDF)
    (h1 : 0x80 ≤ b1 ∧ b1 ≤ 0xBF) :
    DecodeRune (b0 :: b1 :: t) = ((b0 - 0xC0) * 64 + (b1 - 0x80), 2) := by
  have hc : isCont b1 = true := by simp [isCont, h1]
  simp only [DecodeRune]
  rw [if_neg (by omega), if_pos h0, if_pos hc]

theorem DecodeRune_three {b0 b1 b2 : Nat} (t : Str) (h0 : 0xE0 ≤ b0 ∧ b0 ≤ 0xEF)
    (h1 : (if b0 = 0xE0 then 0xA0 else 0x80) ≤ b1 ∧ b1 ≤ (if b0 = 0xED then 0x9F else 0xBF))
    (h2 : 0x80 ≤ b2 ∧ b2 ≤ 0xBF) :
    DecodeRune (b0 :: b1 :: b2 :: t) =
      ((b0 - 0xE0) * 4096 + (b1 - 0x80) * 64 + (b2 - 0x80), 3) := by
  have hc : isCont b2 = true := by simp [isCont, h2]
  simp only [DecodeRune]
  rw [if_neg (by omega), if_neg (by omega), if_pos h0, if_pos ⟨h1.1, h1.2, hc⟩]

theorem DecodeRune_four {b0 b1 b2 b3 : Nat} (t : Str) (h0 : 0xF0 ≤ b0 ∧ b0 ≤ 0xF4)
    (h1 : (if b0 = 0xF0 then 0x90 else 0x80) ≤ b1 ∧ b1 ≤ (if b0 = 0xF4 then 0x8F else 0xBF))
    (h2 : 0x80 ≤ b2 ∧ b2 ≤ 0xBF) (h3 : 0x80 ≤ b3 ∧ b3 ≤ 0xBF) :
    DecodeRune (b0 :: b1 :: b2 :: b3 :: t) =
      ((b0 - 0xF0) * 262144 + (b1 - 0x80) * 4096 + (b2 - 0x80) * 64 + (b3 - 0x80), 4) := by
  have hc2 : isCont b2 = true := by simp [isCont, h2]
  have hc3 : isCont b3 = true := by simp [isCont, h3]
  simp only [DecodeRune]
  rw [if_neg (by omega), if_neg (by omega), if_neg (by omega), if_pos h0,
    if_pos ⟨h1.1, h1.2, hc2, hc3⟩]

/-- The shapes of input on which `DecodeRune` does not fail. -/
theorem DecodeRune_cases (b : Nat) (rest : Str) (hb : ¬ b < 0x80) :
    DecodeRune (b :: rest) = (RuneError, 1) ∨
    (∃ b1 t, rest = b1 :: t ∧ (0xC2 ≤ b ∧ b ≤ 0xDF) ∧ (0x80 ≤ b1 ∧ b1 ≤ 0xBF)) ∨
    (∃ b1 b2 t, rest = b1 :: b2 :: t ∧ (0xE0 ≤ b ∧ b ≤ 0xEF) ∧
      ((if b = 0xE0 then 0xA0 else 0x80) ≤ b1 ∧ b1 ≤ (if b = 0xED then 0x9F else 0xBF)) ∧
      (0x80 ≤ b2 ∧ b2 ≤ 0xBF)) ∨
    (∃ b1 b2 b3 t, rest = b1 :: b2 :: b3 :: t ∧ (0xF0 ≤ b ∧ b ≤ 0xF4) ∧
      ((if b = 0xF0 then 0x90 else 0x80) ≤ b1 ∧ b1 ≤ (if b = 0xF4 then 0x8F else 0xBF)) ∧
      (0x80 ≤ b2 ∧ b2 ≤ 0xBF) ∧ (0x80 ≤ b3 ∧ b3 ≤ 0xBF)) := by
  simp only [DecodeRune]
  rw [if_neg hb]
  by_cases h2 : 0xC2 ≤ b ∧ b ≤ 0xDF
  · rw [if_pos h2]
    rcases rest with _ | ⟨b1, t⟩
    · exact Or.inl rfl
    · by_cases hc : isCont b1 = true
      · have hc1 : 0x80 ≤ b1 ∧ b1 ≤ 0xBF := by simpa [isCont] using hc
        exact Or.inr (Or.inl ⟨b1, t, rfl, h2, hc1⟩)
      · simp only [hc]; exact Or.inl rfl
  · rw [if_neg h2]
    by_cases h3 : 0xE0 ≤ b ∧ b ≤ 0xEF
    · rw [if_pos h3]
      rcases rest with _ | ⟨b1, _ | ⟨b2, t⟩⟩
      · exact Or.inl rfl
      · exact Or.inl rfl
      · simp only
        by_cases h : (if b = 0xE0 then 0xA0 else 0x80) ≤ b1 ∧
            b1 ≤ (if b = 0xED then 0x9F else 0xBF) ∧ isCont b2 = true
        · have hc2 : 0x80 ≤ b2 ∧ b2 ≤ 0xBF := by simpa [isCont] using h.2.2
          exact Or.inr (Or.inr (Or.inl ⟨b1, b2, t, rfl, h3, ⟨h.1, h.2.1⟩, hc2⟩))
        · rw [if_neg h]; exact Or.inl rfl
    · rw [if_neg h3]
      by_cases h4 : 0xF0 ≤ b ∧ b ≤ 0xF4
      · rw [if_pos h4]
        rcases rest with _ | ⟨b1, _ | ⟨b2, _ | ⟨b3, t⟩⟩⟩
        · exact Or.inl rfl
        · exact Or.inl rfl
        · exact Or.inl rfl
        · simp only
          by_cases h : (if b = 0xF0 then 0x90 else 0x80) ≤ b1 ∧
              b1 ≤ (if b = 0xF4 then 0x8F else 0xBF) ∧ isCont b2 = true ∧ isCont b3 = true
          · have hc2 : 0x80 ≤ b2 ∧ b2 ≤ 0xBF := by simpa [isCont] using h.2.2.1
            have hc3 : 0x80 ≤ b3 ∧ b3 ≤ 0xBF := by simpa [isCont] using h.2.2.2
            exact Or.inr (Or.inr (Or.inr ⟨b1, b2, b3, t, rfl, h4, ⟨h.1, h.2.1⟩, hc2, hc3⟩))
          · rw [if_neg h]; exact Or.inl rfl
      · rw [if_neg h4]; exact Or.inl rfl

theorem AppendRune_two {b0 b1 : Nat} (h0 : 0xC2 ≤ b0 ∧ b0 ≤ 0xDF) (h1 : 0x80 ≤ b1 ∧ b1 ≤ 0xBF) :
    AppendRune ((b0 - 0xC0) * 64 + (b1 - 0x80)) = [b0, b1] := by
  simp only [AppendRune, encodeValid, RuneError]
  rw [if_neg (by omega), if_neg (by omega), if_pos (by omega)]
  simp only [List.cons.injEq, and_true]
  omega

theorem AppendRune_three {b0 b1 b2 : Nat} (h0 : 0xE0 ≤ b0 ∧ b0 ≤ 0xEF)
    (h1 : (if b0 = 0xE0 then 0xA0 else 0x80) ≤ b1 ∧ b1 ≤ (if b0 = 0xED then 0x9F else 0xBF))
    (h2 : 0x80 ≤ b2 ∧ b2 ≤ 0xBF) :
    AppendRune ((b0 - 0xE0) * 4096 + (b1 - 0x80) * 64 + (b2 - 0x80)) = [b0, b1, b2] := by
  simp only [AppendRune, encodeValid, RuneError]
  split at h1 <;> split at h1 <;>
  · rw [if_neg (by omega), if_neg (by omega), if_neg (by omega), if_pos (by omega)]
    simp only [List.cons.injEq, and_true]
    omega

theorem AppendRune_four {b0 b1 b2 b3 : Nat} (h0 : 0xF0 ≤ b0 ∧ b0 ≤ 0xF4)
    (h1 : (if b0 = 0xF0 then 0x90 else 0x80) ≤ b1 ∧ b1 ≤ (if b0 = 0xF4 then 0x8F else 0xBF))
    (h2 : 0x80 ≤ b2 ∧ b2 ≤ 0xBF) (h3 : 0x80 ≤ b3 ∧ b3 ≤ 0xBF) :
    AppendRune ((b0 - 0xF0) * 262144 + (b1 - 0x80) * 4096 + (b2 - 0x80) * 64 + (b3 - 0x80)) =
      [b0, b1, b2, b3] := by
  simp only [AppendRune, encodeValid, RuneError]
  split at h1 <;> split at h1 <;>
  · rw [if_neg (by omega), if_neg (by omega), if_neg (by omega), if_neg (by omega)]
    simp only [List.cons.injEq, and_true]
    omega

end utf8

/-! ## Facts about `json`: the round trip -/

namespace json

theorem hexVal_hex {k : Nat} (h : k < 16) : hexVal (hex k) = some k := by
  unfold hex hexVal
  split
  · rw [if_pos (by omega)]; congr 1; omega
  · rw [if_neg (by omega), if_pos (by omega)]; congr 1; omega

theorem unquoteLoop_quote (m : Nat) (rest : Str) :
    unquoteLoop (m + 1) (34 :: rest) = some ([], rest) := by
  simp [unquoteLoop]

theorem unquoteLoop_plain (m : Nat) {b : Nat} (X : Str) (h1 : b ≠ 34) (h2 : b ≠ 92)
    (h3 : ¬ b < 0x20) (h4 : b < 0x80) :
    unquoteLoop (m + 1) (b :: X) = (unquoteLoop m X).map (fun r => (b :: r.1, r.2)) := by
  simp only [unquoteLoop]
  rw [if_neg h1, if_neg h2, if_neg h3, if_pos h4]

theorem unquoteLoop_multi (m : Nat) {b : Nat} (X : Str) (h : ¬ b < 0x80) :
    unquoteLoop (m + 1) (b :: X) =
      (unquoteLoop m ((b :: X).drop (utf8.DecodeRune (b :: X)).2)).map
        (fun r => (utf8.AppendRune (utf8.DecodeRune (b :: X)).1 ++ r.1, r.2)) := by
  simp only [unquoteLoop]
  rw [if_neg (by omega), if_neg (by omega), if_neg (by omega), if_neg h]

theorem unquoteLoop_u4 (m : Nat) {a b c d rr : Nat} (X : Str)
    (h : getu4 [a, b, c, d] = some rr) (hs : ¬ (0xD800 ≤ rr ∧ rr < 0xE000)) :
    unquoteLoop (m + 1) (92 :: 117 :: a :: b :: c :: d :: X) =
      (unquoteLoop m X).map (fun r => (utf8.AppendRune rr ++ r.1, r.2)) := by
  have h1 : getu4 (a :: b :: c :: d :: X) = some rr := by
    simpa [getu4] using h
  simp only [unquoteLoop]
  simp [h1, hs]

theorem unquoteLoop_escape (m : Nat) {c x : Nat} (X : Str)
    (h : (c = 34 ∧ x = 34) ∨ (c = 92 ∧ x = 92) ∨ (c = 98 ∧ x = 8) ∨ (c = 102 ∧ x = 12) ∨
      (c = 110 ∧ x = 10) ∨ (c = 114 ∧ x = 13) ∨ (c = 116 ∧ x = 9)) :
    unquoteLoop (m + 1) (92 :: c :: X) = (unquoteLoop m X).map (fun r => (x :: r.1, r.2)) := by
  rcases h with ⟨rfl, rfl⟩ | ⟨rfl, rfl⟩ | ⟨rfl, rfl⟩ | ⟨rfl, rfl⟩ | ⟨rfl, rfl⟩ | ⟨rfl, rfl⟩ |
    ⟨rfl, rfl⟩ <;> simp [unquoteLoop]

theorem AppendRune_ascii {b : Nat} (h : b < 0x80) : utf8.AppendRune b = [b] := by
  simp only [utf8.AppendRune, utf8.encodeValid]
  rw [if_neg (by omega), if_pos h]

theorem DecodeRune_ascii {b : Nat} (rest : Str) (h : b < 0x80) :
    utf8.DecodeRune (b :: rest) = (b, 1) := by
  simp only [utf8.DecodeRune]
  rw [if_pos h]

/-- What the encoder writes for an ASCII byte decodes to that byte. -/
theorem unquoteLoop_escapeByte (m : Nat) {b : Nat} (X : Str) (h : b < 0x80) :
    unquoteLoop (m + 1) (escapeByte b ++ X) =
      (unquoteLoop m X).map (fun r => (b :: r.1, r.2)) := by
  unfold escapeByte
  split
  · rename_i h1
    rcases h1 with rfl | rfl
    · exact unquoteLoop_escape m (c := 92) (x := 92) X (by simp)
    · exact unquoteLoop_escape m (c := 34) (x := 34) X (by simp)
  · split
    · rename_i h2; subst h2
      exact unquoteLoop_escape m (c := 98) (x := 8) X (by simp)
    · split
      · rename_i h2; subst h2
        exact unquoteLoop_escape m (c := 102) (x := 12) X (by simp)
      · split
        · rename_i h2; subst h2
          exact unquoteLoop_escape m (c := 110) (x := 10) X (by simp)
        · split
          · rename_i h2; subst h2
            exact unquoteLoop_escape m (c := 114) (x := 13) X (by simp)
          · split
            · rename_i h2; subst h2
              exact unquoteLoop_escape m (c := 116) (x := 9) X (by simp)
            · split
              · have hg : getu4 [48, 48, hex (b / 16), hex (b % 16)] = some b := by
                  have h1 : hexVal (hex (b / 16)) = some (b / 16) := hexVal_hex (by omega)
                  have h2 : hexVal (hex (b % 16)) = some (b % 16) := hexVal_hex (by omega)
                  have h0 : hexVal 48 = some 0 := by decide
                  simp only [getu4, h0, h1, h2]
                  congr 1
                  omega
                have := unquoteLoop_u4 m X hg (by omega)
                rw [AppendRune_ascii h] at this
                simpa using this
              · rename_i h1 h2 h3 h4 h5 h6 h7
                simp only [not_or] at h1 h7
                exact unquoteLoop_plain m X h1.2 h1.1 h7.1 h

theorem escapeByte_length (b : Nat) : 1 ≤ (escapeByte b).length := by
  unfold escapeByte
  repeat' split
  all_goals simp

theorem appendStringLoop_length : ∀ (n : Nat) (s : Str), s.length ≤ n →
    s.length ≤ (appendStringLoop n s).length := by
  intro n
  induction n with
  | zero =>
    intro s h
    have : s = [] := by simpa using h
    subst this
    simp
  | succ n ih =>
    intro s h
    cases s with
    | nil => simp
    | cons b t =>
      simp only [appendStringLoop]
      have ht : t.length ≤ n := by simpa using h
      split
      · have := ih t ht
        have := escapeByte_length b
        simp only [List.length_append, List.length_cons]
        omega
      · rename_i hb
        split
        · have := ih t ht
          simp only [List.length_append, List.length_cons, List.length_nil]
          omega
        · rename_i hne
          have hsz : (utf8.DecodeRune (b :: t)).2 ≤ (b :: t).length ∧
              1 ≤ (utf8.DecodeRune (b :: t)).2 ∧ (utf8.DecodeRune (b :: t)).2 ≤ 4 := by
            rcases utf8.DecodeRune_cases b t hb with h1 | ⟨b1, t1, rfl, h0, h1⟩ |
              ⟨b1, b2, t1, rfl, h0, h1, h2⟩ | ⟨b1, b2, b3, t1, rfl, h0, h1, h2, h3⟩
            · rw [h1]; simp
            · rw [utf8.DecodeRune_two t1 h0 h1]; simp
            · rw [utf8.DecodeRune_three t1 h0 h1 h2]; simp
            · rw [utf8.DecodeRune_four t1 h0 h1 h2 h3]; simp
          have hd : ((b :: t).drop (utf8.DecodeRune (b :: t)).2).length ≤ n := by
            simp only [List.length_drop, List.length_cons] at hsz ⊢
            omega
          have := ih _ hd
          simp only [List.length_drop, List.length_cons] at this hsz
          split
          · simp only [List.length_append, List.length_cons, List.length_nil]
            omega
          · simp only [List.length_append, List.length_take, List.length_cons]
            omega

/-- Decoding what `appendString` wrote gives the string back, coerced to valid
UTF-8; the input after the closing quote is left over. -/
theorem unquoteLoop_appendStringLoop : ∀ (n : Nat) (s : Str) (m : Nat) (rest : Str),
    s.length ≤ n → s.length < m →
    unquoteLoop m (appendStringLoop n s ++ 34 :: rest) = some (coerceLoop n s, rest) := by
  intro n
  induction n with
  | zero =>
    intro s m rest h1 h2
    obtain ⟨k, rfl⟩ : ∃ k, m = k + 1 := ⟨m - 1, by omega⟩
    simp [appendStringLoop, coerceLoop, unquoteLoop_quote]
  | succ n ih =>
    intro s m rest h1 h2
    obtain ⟨k, rfl⟩ : ∃ k, m = k + 1 := ⟨m - 1, by omega⟩
    cases s with
    | nil => simp [appendStringLoop, coerceLoop, unquoteLoop_quote]
    | cons b t =>
      have ht : t.length ≤ n := by simpa using h1
      have hk : t.length < k := by simp at h2; omega
      simp only [appendStringLoop, coerceLoop]
      by_cases hb : b < 0x80
      · rw [if_pos hb, List.append_assoc, unquoteLoop_escapeByte k _ hb, ih t k rest ht hk,
          DecodeRune_ascii t hb, AppendRune_ascii hb]
        simp
      · rw [if_neg hb]
        rcases utf8.DecodeRune_cases b t hb with h0 | ⟨b1, t1, rfl, h0, h1⟩ |
          ⟨b1, b2, t1, rfl, h0, h1, h2⟩ | ⟨b1, b2, b3, t1, rfl, h0, h1, h2, h3⟩
        · rw [h0]
          simp only [and_self, if_true, List.drop_succ_cons, List.drop_zero]
          have hg : getu4 [102, 102, 102, 100] = some utf8.RuneError := by decide
          have := unquoteLoop_u4 k (appendStringLoop n t ++ 34 :: rest) hg (by decide)
          simp only [List.cons_append, List.nil_append, List.append_assoc]
          rw [this, ih t k rest ht hk]
          simp
        · have hd := utf8.DecodeRune_two t1 h0 h1
          have hd2 := utf8.DecodeRune_two (appendStringLoop n t1 ++ 34 :: rest) h0 h1
          have ha := utf8.AppendRune_two h0 h1
          have ht1 : t1.length ≤ n := by simp at ht; omega
          have hk1 : t1.length < k := by simp at hk; omega
          rw [hd]
          simp only [utf8.RuneError]
          rw [if_neg (by omega), if_neg (by omega)]
          simp only [List.take_succ_cons, List.take_zero, List.drop_succ_cons, List.drop_zero,
            List.cons_append, List.nil_append]
          rw [unquoteLoop_multi k _ hb, hd2]
          simp only [List.drop_succ_cons, List.drop_zero]
          rw [ih t1 k rest ht1 hk1, ha]
          simp
        · have hd := utf8.DecodeRune_three t1 h0 h1 h2
          have hd2 := utf8.DecodeRune_three (appendStringLoop n t1 ++ 34 :: rest) h0 h1 h2
          have ha := utf8.AppendRune_three h0 h1 h2
          have ht1 : t1.length ≤ n := by simp at ht; omega
          have hk1 : t1.length < k := by simp at hk; omega
          rw [hd]
          simp only [utf8.RuneError]
          rw [if_neg (by omega)]
          simp only [List.take_succ_cons, List.take_zero, List.drop_succ_cons, List.drop_zero]
          split
          · rename_i hc
            have hg0 : ∀ c : Nat, (c = 0x2028 ∨ c = 0x2029) →
                getu4 [50, 48, 50, hex (c % 16)] = some c := by
              intro c hc
              rcases hc with rfl | rfl <;> decide
            have hg := hg0 _ hc
            have := unquoteLoop_u4 k (appendStringLoop n t1 ++ 34 :: rest) hg (by omega)
            simp only [List.cons_append, List.nil_append]
            rw [this, ih t1 k rest ht1 hk1]
            simp
          · simp only [List.cons_append, List.nil_append]
            rw [unquoteLoop_multi k _ hb, hd2]
            simp only [List.drop_succ_cons, List.drop_zero]
            rw [ih t1 k rest ht1 hk1, ha]
            simp
        · have hd := utf8.DecodeRune_four t1 h0 h1 h2 h3
          have hd2 := utf8.DecodeRune_four (appendStringLoop n t1 ++ 34 :: rest) h0 h1 h2 h3
          have ha := utf8.AppendRune_four h0 h1 h2 h3
          have ht1 : t1.length ≤ n := by simp at ht; omega
          have hk1 : t1.length < k := by simp at hk; omega
          have hbig : 0x10000 ≤ (b - 0xF0) * 262144 + (b1 - 0x80) * 4096 + (b2 - 0x80) * 64
              + (b3 - 0x80) := by
            split at h1 <;> omega
          rw [hd]
          simp only [utf8.RuneError]
          rw [if_neg (by omega), if_neg (by omega)]
          simp only [List.take_succ_cons, List.take_zero, List.drop_succ_cons, List.drop_zero,
            List.cons_append, List.nil_append]
          rw [unquoteLoop_multi k _ hb, hd2]
          simp only [List.drop_succ_cons, List.drop_zero]
          rw [ih t1 k rest ht1 hk1, ha]
          simp


theorem coerceLoop_valid : ∀ (n : Nat) (s : Str), s.length ≤ n → utf8.validLoop n s = true →
    coerceLoop n s = s := by
  intro n
  induction n with
  | zero =>
    intro s h _
    have : s = [] := by simpa using h
    subst this
    rfl
  | succ n ih =>
    intro s h hv
    cases s with
    | nil => rfl
    | cons b t =>
      have ht : t.length ≤ n := by simpa using h
      simp only [utf8.validLoop] at hv
      simp only [coerceLoop]
      by_cases hb : b < 0x80
      · rw [DecodeRune_ascii t hb] at hv ⊢
        rw [AppendRune_ascii hb]
        simp only [List.drop_succ_cons, List.drop_zero] at hv ⊢
        rw [if_neg (by simp only [utf8.RuneError]; omega)] at hv
        rw [ih t ht hv]
        rfl
      · rcases utf8.DecodeRune_cases b t hb with h0 | ⟨b1, t1, rfl, h0, h1⟩ |
          ⟨b1, b2, t1, rfl, h0, h1, h2⟩ | ⟨b1, b2, b3, t1, rfl, h0, h1, h2, h3⟩
        · rw [h0] at hv
          simp at hv
        · rw [utf8.DecodeRune_two t1 h0 h1] at hv ⊢
          rw [if_neg (by simp)] at hv
          simp only [List.drop_succ_cons, List.drop_zero] at hv ⊢
          rw [utf8.AppendRune_two h0 h1, ih t1 (by simp at ht; omega) hv]
          rfl
        · rw [utf8.DecodeRune_three t1 h0 h1 h2] at hv ⊢
          rw [if_neg (by simp)] at hv
          simp only [List.drop_succ_cons, List.drop_zero] at hv ⊢
          rw [utf8.AppendRune_three h0 h1 h2, ih t1 (by simp at ht; omega) hv]
          rfl
        · rw [utf8.DecodeRune_four t1 h0 h1 h2 h3] at hv ⊢
          rw [if_neg (by simp)] at hv
          simp only [List.drop_succ_cons, List.drop_zero] at hv ⊢
          rw [utf8.AppendRune_four h0 h1 h2 h3, ih t1 (by simp at ht; omega) hv]
          rfl

/-- Valid UTF-8 is not changed by the coercion. -/
theorem coerce_valid {s : Str} (h : utf8.ValidString s = true) : coerce s = s :=
  coerceLoop_valid s.length s (Nat.le_refl _) h

theorem coerceUser_valid {u : User} (h : ValidUser u) : coerceUser u = u := by
  obtain ⟨h1, h2, h3, h4, h5, h6, h7, h8⟩ := h
  simp only [coerceUser, coerce_valid h1, coerce_valid h2, coerce_valid h3, coerce_valid h4,
    coerce_valid h5, coerce_valid h6, coerce_valid h7, coerce_valid h8]

/-- A string literal written by `appendString`, from after its opening quote,
reads back as the coerced string. -/
theorem unquote_appendString (s rest : Str) :
    unquote (appendStringLoop s.length s ++ 34 :: rest) = some (coerce s, rest) := by
  unfold unquote coerce
  apply unquoteLoop_appendStringLoop _ _ _ _ (Nat.le_refl _)
  have := appendStringLoop_length s.length s (Nat.le_refl _)
  simp only [List.length_append, List.length_cons]
  omega

theorem unquote_plainKey {k : Str} (hk : PlainKey k) (rest : Str) :
    unquote (k ++ 34 :: rest) = some (k, rest) := by
  have := unquote_appendString k rest
  rw [hk.1, hk.2] at this
  exact this

theorem scanValue_appendString (budget : Nat) (s rest : Str) :
    scanValue (budget + 1) (appendString s ++ rest) =
      some ((Value.string (coerce s), []), rest) := by
  have h : appendString s ++ rest = 34 :: (appendStringLoop s.length s ++ 34 :: rest) := by
    simp [appendString]
  rw [h]
  simp [scanValue, unquote_appendString]

theorem membersBody_length (l : List (Str × Str)) : l.length ≤ (membersBody l).length := by
  induction l with
  | nil => simp
  | cons kv more ih =>
    obtain ⟨k, v⟩ := kv
    cases more with
    | nil => simp [membersBody]
    | cons kv2 more =>
      simp only [membersBody, List.length_append, List.length_cons] at ih ⊢
      omega

/-- Scanning the members that `MarshalIndent` wrote gives back every key with
its value coerced to valid UTF-8. -/
theorem scanMembers_membersBody (value : Str → Option (Value × Str))
    (hval : ∀ v X, value (34 :: (appendStringLoop v.length v ++ 34 :: X)) =
      some (Value.string (coerce v), X)) :
    ∀ (l : List (Str × Str)) (fuel : Nat), l ≠ [] → l.length ≤ fuel →
      (∀ kv ∈ l, PlainKey kv.1) →
      scanMembers value fuel (membersBody l) =
        some (l.map (fun kv => (kv.1, Value.string (coerce kv.2))), []) := by
  intro l
  induction l with
  | nil => intro fuel h; exact absurd rfl h
  | cons kv more ih =>
    intro fuel _ hf hk
    obtain ⟨k, v⟩ := kv
    obtain ⟨f, rfl⟩ : ∃ f, fuel = f + 1 := ⟨fuel - 1, by simp at hf; omega⟩
    have hkey := hk (k, v) (by simp)
    cases more with
    | nil =>
      have h : membersBody [(k, v)] =
          34 :: (k ++ 34 :: ([58, 32, 34] ++ (appendStringLoop v.length v ++ 34 :: [10, 125]))) := by
        simp [membersBody, appendString]
      rw [h]
      simp only [scanMembers]
      rw [unquote_plainKey hkey]
      simp [skipSpace, isSpace, hval]
    | cons kv2 more =>
      have h : membersBody ((k, v) :: kv2 :: more) =
          34 :: (k ++ 34 :: ([58, 32, 34] ++ (appendStringLoop v.length v ++
            34 :: ([44, 10, 32, 32] ++ membersBody (kv2 :: more))))) := by
        simp [membersBody, appendString]
      have hne : ∃ X, membersBody (kv2 :: more) = 34 :: X := by
        obtain ⟨k2, v2⟩ := kv2
        cases more <;> exact ⟨_, rfl⟩
      obtain ⟨X, hX⟩ := hne
      have := ih f (by simp) (by simp at hf ⊢; omega) (fun kv hkv => hk kv (by simp [hkv]))
      rw [h]
      simp only [scanMembers]
      rw [unquote_plainKey hkey]
      simp only [List.cons_append, List.nil_append, skipSpace, isSpace]
      simp only [hX] at this ⊢
      simp [hval, skipSpace, isSpace, this]


/-- The keys of the eight fields with the fields' values. -/
theorem MarshalIndent_eq (u : User) :
    MarshalIndent u = [123, 10, 32, 32] ++ membersBody
      [(lit "name", u.Name), (lit "age", u.Age), (lit "contact", u.Contact),
       (lit "company", u.Company), (lit "city", u.City), (lit "state", u.State),
       (lit "country", u.Country), (lit "zipcode", u.Zipcode)] := by
  simp [MarshalIndent, member, membersBody]

theorem storeMembers_fields (a b c d e f g h : Str) :
    storeMembers
      [(lit "name", Value.string a), (lit "age", Value.string b),
       (lit "contact", Value.string c), (lit "company", Value.string d),
       (lit "city", Value.string e), (lit "state", Value.string f),
       (lit "country", Value.string g), (lit "zipcode", Value.string h)]
      (⟨[], [], [], [], [], [], [], []⟩, false) = (⟨a, b, c, d, e, f, g, h⟩, false) := by
  have h1 : lookupField (lit "name") = some Field.name := by decide
  have h2 : lookupField (lit "age") = some Field.age := by decide
  have h3 : lookupField (lit "contact") = some Field.contact := by decide
  have h4 : lookupField (lit "company") = some Field.company := by decide
  have h5 : lookupField (lit "city") = some Field.city := by decide
  have h6 : lookupField (lit "state") = some Field.state := by decide
  have h7 : lookupField (lit "country") = some Field.country := by decide
  have h8 : lookupField (lit "zipcode") = some Field.zipcode := by decide
  simp only [storeMembers, h1, h2, h3, h4, h5, h6, h7, h8, setField]

theorem plainKeys (u : User) :
    ∀ kv ∈ [(lit "name", u.Name), (lit "age", u.Age), (lit "contact", u.Contact),
       (lit "company", u.Company), (lit "city", u.City), (lit "state", u.State),
       (lit "country", u.Country), (lit "zipcode", u.Zipcode)], PlainKey kv.1 := by
  have k1 : PlainKey (lit "name") := ⟨by decide, by decide⟩
  have k2 : PlainKey (lit "age") := ⟨by decide, by decide⟩
  have k3 : PlainKey (lit "contact") := ⟨by decide, by decide⟩
  have k4 : PlainKey (lit "company") := ⟨by decide, by decide⟩
  have k5 : PlainKey (lit "city") := ⟨by decide, by decide⟩
  have k6 : PlainKey (lit "state") := ⟨by decide, by decide⟩
  have k7 : PlainKey (lit "country") := ⟨by decide, by decide⟩
  have k8 : PlainKey (lit "zipcode") := ⟨by decide, by decide⟩
  intro kv hkv
  simp only [List.mem_cons, List.mem_singleton, List.not_mem_nil, or_false] at hkv
  rcases hkv with rfl | rfl | rfl | rfl | rfl | rfl | rfl | rfl <;> assumption

theorem scanValue_object (budget : Nat) (X : Str) :
    scanValue (budget + 2) (123 :: 10 :: 32 :: 32 :: 34 :: X) =
      (scanMembers (fun s => (scanValue (budget + 1) s).map (fun r => (r.1.1, r.2)))
        (34 :: X).length (34 :: X)).map (fun r => ((Value.object, r.1), r.2)) := by
  rw [scanValue]
  simp [skipSpace, isSpace]

/-- The scanner on the text of `MarshalIndent`, at any depth budget that
allows one level of nesting. -/
theorem scanValue_MarshalIndent (budget : Nat) (u : User) :
    scanValue (budget + 2) (MarshalIndent u) =
      some ((Value.object,
        [(lit "name", Value.string (coerce u.Name)), (lit "age", Value.string (coerce u.Age)),
         (lit "contact", Value.string (coerce u.Contact)),
         (lit "company", Value.string (coerce u.Company)),
         (lit "city", Value.string (coerce u.City)), (lit "state", Value.string (coerce u.State)),
         (lit "country", Value.string (coerce u.Country)),
         (lit "zipcode", Value.string (coerce u.Zipcode))]), []) := by
  have hlen := membersBody_length
    [(lit "name", u.Name), (lit "age", u.Age), (lit "contact", u.Contact),
       (lit "company", u.Company), (lit "city", u.City), (lit "state", u.State),
       (lit "country", u.Country), (lit "zipcode", u.Zipcode)]
  have hscan := scanMembers_membersBody
    (fun s => (scanValue (budget + 1) s).map (fun r => (r.1.1, r.2)))
    (by
      intro v X
      have h := scanValue_appendString budget v X
      have e : appendString v ++ X = 34 :: (appendStringLoop v.length v ++ 34 :: X) := by
        simp [appendString]
      rw [e] at h
      show Option.map _ (scanValue (budget + 1) _) = _
      rw [h]
      rfl)
    _ _ (by simp) hlen (plainKeys u)
  obtain ⟨X, hX⟩ : ∃ X, membersBody
      [(lit "name", u.Name), (lit "age", u.Age), (lit "contact", u.Contact),
       (lit "company", u.Company), (lit "city", u.City), (lit "state", u.State),
       (lit "country", u.Country), (lit "zipcode", u.Zipcode)] = 34 :: X := ⟨_, rfl⟩
  rw [hX] at hscan
  rw [MarshalIndent_eq, hX]
  simp only [List.cons_append, List.nil_append]
  rw [scanValue_object, hscan]
  rfl

/-- Round trip of the codec: the text `MarshalIndent` writes for a record
decodes, and to the record with every field coerced to valid UTF-8. -/
theorem Unmarshal_MarshalIndent (u : User) :
    Unmarshal (MarshalIndent u) = .ok (coerceUser u) := by
  have hsk : skipSpace (MarshalIndent u) = MarshalIndent u := by
    rw [MarshalIndent_eq]
    simp [skipSpace, isSpace]
  have hv : scanValue (maxNestingDepth + 1) (MarshalIndent u) = _ :=
    scanValue_MarshalIndent 9999 u
  unfold Unmarshal scanText
  rw [hsk, hv]
  simp [skipSpace, storeMembers_fields, coerceUser]

end json

/-! ## Facts about `os` -/

namespace os

theorem Stat_insert (fs : FS) (p : Str) (n : Node) (q : Str) :
    Stat (fs.insert p n) q =
      if isAmbient q then some Node.dir else if q = p then some n else fs.lookup q := by
  unfold Stat
  split
  · rfl
  · split
    · rename_i h; subst h; simp
    · rename_i h; exact AList.lookup_insert_ne h

theorem Stat_insert_self {fs : FS} {p : Str} {n : Node} (h : isAmbient p = false) :
    Stat (fs.insert p n) p = some n := by
  simp [Stat_insert, h]

theorem Stat_insert_ne {fs : FS} {p q : Str} {n : Node} (h : q ≠ p) :
    Stat (fs.insert p n) q = Stat fs q := by
  simp only [Stat_insert, h, if_false]; rfl

theorem Stat_erase_self {fs : FS} {p : Str} (h : isAmbient p = false) :
    Stat (fs.erase p) p = none := by
  simp [Stat, h]

theorem Stat_erase_ne {fs : FS} {p q : Str} (h : q ≠ p) :
    Stat (fs.erase p) q = Stat fs q := by
  simp only [Stat, AList.lookup_erase_ne h]

theorem mem_cuts : ∀ (p q : Str), q ∈ cuts p ↔ ∃ r, p = q ++ 47 :: r := by
  intro p
  induction p with
  | nil => intro q; simp [cuts]
  | cons c t ih =>
    intro q
    simp only [cuts, List.mem_append, List.mem_map]
    constructor
    · rintro (h | ⟨q1, h1, rfl⟩)
      · split at h
        · rename_i hc
          simp only [List.mem_singleton] at h
          subst h; subst hc
          exact ⟨t, rfl⟩
        · simp at h
      · obtain ⟨r, hr⟩ := (ih q1).mp h1
        exact ⟨r, by rw [hr]; rfl⟩
    · rintro ⟨r, hr⟩
      cases q with
      | nil =>
        simp only [List.nil_append, List.cons.injEq] at hr
        left; simp [hr.1]
      | cons d q1 =>
        simp only [List.cons_append, List.cons.injEq] at hr
        right
        exact ⟨q1, (ih q1).mpr ⟨r, hr.2⟩, by rw [hr.1]⟩

/-- An ancestor of `p` is a non-empty path that `p` continues after a separator. -/
theorem mem_ancestors {p a : Str} : a ∈ ancestors p ↔ a ≠ [] ∧ ∃ r, p = a ++ 47 :: r := by
  simp only [ancestors, List.mem_filter, mem_cuts, decide_eq_true_eq]
  tauto

theorem not_mem_ancestors_self (p : Str) : p ∉ ancestors p := by
  intro h
  obtain ⟨_, r, hr⟩ := mem_ancestors.mp h
  have := congrArg List.length hr
  simp at this

theorem isFile_congr {fs1 fs2 : FS} {a : Str} (h : Stat fs2 a = Stat fs1 a) :
    isFile fs2 a = isFile fs1 a := by
  simp only [isFile, h]

theorem underFile_congr {fs1 fs2 : FS} {p : Str}
    (h : ∀ a ∈ ancestors p, isFile fs2 a = isFile fs1 a) :
    underFile fs2 p = underFile fs1 p := by
  unfold underFile
  generalize ancestors p = l at h
  induction l with
  | nil => rfl
  | cons a l ih =>
    simp only [List.any_cons]
    rw [h a (List.mem_cons_self a l), ih (fun b hb => h b (List.mem_cons_of_mem a hb))]

/-- The error of the walk to `p` depends only on which ancestors of `p` are
regular files. -/
theorem walkErrno_congr {fs1 fs2 : FS} {p : Str}
    (h : ∀ a ∈ ancestors p, isFile fs2 a = isFile fs1 a) :
    walkErrno fs2 p = walkErrno fs1 p := by
  simp only [walkErrno, underFile_congr h]

theorem absentErrno_congr {fs1 fs2 : FS} {p : Str}
    (h : ∀ a ∈ ancestors p, isFile fs2 a = isFile fs1 a) :
    absentErrno fs2 p = absentErrno fs1 p := by
  simp only [absentErrno, walkErrno_congr h]

theorem absentErrno_of_walk {fs : FS} {p : Str} (h : walkErrno fs p = none) :
    absentErrno fs p = .ENOENT := by
  simp [absentErrno, h]

/-- Storing a node at `p` leaves the walk to `p` as it was. -/
theorem walkErrno_insert_self (fs : FS) (p : Str) (n : Node) :
    walkErrno (fs.insert p n) p = walkErrno fs p :=
  walkErrno_congr (fun _ ha => isFile_congr
    (Stat_insert_ne (fun h => not_mem_ancestors_self p (h ▸ ha))))

/-- Removing the node at `p` leaves the walk to `p` as it was. -/
theorem walkErrno_erase_self (fs : FS) (p : Str) :
    walkErrno (fs.erase p) p = walkErrno fs p :=
  walkErrno_congr (fun _ ha => isFile_congr
    (Stat_erase_ne (fun h => not_mem_ancestors_self p (h ▸ ha))))

/-- Replacing the content of a regular file leaves the regular files the same. -/
theorem isFile_insert_file {fs : FS} {path d1 d2 : Str}
    (h : Stat fs path = some (Node.file d1)) (q : Str) :
    isFile (fs.insert path (Node.file d2)) q = isFile fs q := by
  by_cases hq : q = path
  · subst hq
    have hamb : isAmbient q = false := by
      unfold Stat at h
      split at h
      · cases h
      · rename_i h1; simpa using h1
    simp only [isFile, Stat_insert_self hamb, h]
  · exact isFile_congr (Stat_insert_ne hq)

theorem mkdirAllParent_isPrefix (p : Str) : mkdirAllParent p <+: p := by
  unfold mkdirAllParent
  split
  · exact List.nil_prefix
  · rename_i b d h
    have h1 : (b :: d) <:+ p.reverse := by
      rw [← h]
      exact (List.dropWhile_suffix _).trans (List.dropWhile_suffix _)
    have h2 : d <:+ p.reverse := (List.suffix_cons b d).trans h1
    have := List.reverse_prefix.mpr h2
    simpa using this

theorem Mkdir_ok {fs fs2 : FS} {p : Str} (h : Mkdir fs p = .ok fs2) :
    fs2 = fs.insert p Node.dir ∧ Stat fs p = none := by
  unfold Mkdir at h
  split at h
  · cases h
  · split at h
    · cases h
    · rename_i hs
      split at h
      · cases h; exact ⟨rfl, hs⟩
      · cases h
      · cases h

theorem Stat_none_not_ambient {fs : FS} {p : Str} (h : Stat fs p = none) :
    isAmbient p = false := by
  unfold Stat at h
  split at h
  · cases h
  · rename_i h1; simpa using h1

/-- What `MkdirAll` does to the file system: every path keeps its node, except
that prefixes of `p` that named nothing may now name a directory; and on
success `p` is a directory. -/
theorem mkdirAllFuel_spec (n : Nat) : ∀ (fs : FS) (p : Str) (e : Option Errno) (fs1 : FS),
    mkdirAllFuel n fs p = (e, fs1) →
      (∀ q, Stat fs1 q = Stat fs q ∨
        (Stat fs q = none ∧ Stat fs1 q = some Node.dir ∧ q <+: p)) ∧
      (e = none → Stat fs1 p = some Node.dir) := by
  induction n with
  | zero =>
    intro fs p e fs1 h
    simp only [mkdirAllFuel, Prod.mk.injEq] at h
    obtain ⟨rfl, rfl⟩ := h
    exact ⟨fun q => Or.inl rfl, fun h => by cases h⟩
  | succ n ih =>
    intro fs p e fs1 h
    unfold mkdirAllFuel at h
    split at h
    · rename_i hs
      simp only [Prod.mk.injEq] at h
      obtain ⟨rfl, rfl⟩ := h
      exact ⟨fun q => Or.inl rfl, fun _ => hs⟩
    · simp only [Prod.mk.injEq] at h
      obtain ⟨rfl, rfl⟩ := h
      exact ⟨fun q => Or.inl rfl, fun h => by cases h⟩
    · rename_i hs
      -- the parent
      have hmade : ∀ (e0 : Option Errno) (fs0 : FS),
          (if mkdirAllParent p = [] then ((none : Option Errno), fs)
            else mkdirAllFuel n fs (mkdirAllParent p)) = (e0, fs0) →
          ∀ q, Stat fs0 q = Stat fs q ∨
            (Stat fs q = none ∧ Stat fs0 q = some Node.dir ∧ q <+: p) := by
        intro e0 fs0 h0 q
        split at h0
        · simp only [Prod.mk.injEq] at h0
          obtain ⟨_, rfl⟩ := h0
          exact Or.inl rfl
        · rcases (ih _ _ _ _ h0).1 q with h1 | ⟨h1, h2, h3⟩
          · exact Or.inl h1
          · exact Or.inr ⟨h1, h2, h3.trans (mkdirAllParent_isPrefix p)⟩
      simp only at h
      split at h
      · rename_i e0 fs0 hm
        simp only [Prod.mk.injEq] at h
        obtain ⟨rfl, rfl⟩ := h
        exact ⟨hmade _ _ hm, fun h => by cases h⟩
      · rename_i fs0 hm
        have hfr := hmade _ _ hm
        split at h
        · rename_i fs2 hmk
          simp only [Prod.mk.injEq] at h
          obtain ⟨rfl, rfl⟩ := h
          obtain ⟨rfl, hs0⟩ := Mkdir_ok hmk
          have hamb := Stat_none_not_ambient hs0
          refine ⟨fun q => ?_, fun _ => Stat_insert_self hamb⟩
          by_cases hq : q = p
          · subst hq
            exact Or.inr ⟨hs, Stat_insert_self hamb, List.prefix_refl _⟩
          · rw [Stat_insert_ne hq]
            exact hfr q
        · rename_i e1 hmk
          split at h
          · rename_i hd
            simp only [Prod.mk.injEq] at h
            obtain ⟨rfl, rfl⟩ := h
            exact ⟨hfr, fun _ => hd⟩
          · simp only [Prod.mk.injEq] at h
            obtain ⟨rfl, rfl⟩ := h
            exact ⟨hfr, fun h => by cases h⟩

theorem mkdirAllParent_length (p : Str) :
    mkdirAllParent p = [] ∨ (mkdirAllParent p).length < p.length := by
  unfold mkdirAllParent
  split
  · exact Or.inl rfl
  · rename_i b d h
    right
    have h1 : (b :: d) <:+ p.reverse := by
      rw [← h]
      exact (List.dropWhile_suffix _).trans (List.dropWhile_suffix _)
    have := h1.length_le
    simp at this ⊢
    omega

/-- The bound on the recursion of `MkdirAll` is never reached: any two bounds
above the length of the path give the same result. -/
theorem mkdirAllFuel_enough : ∀ (n m : Nat) (fs : FS) (p : Str), p.length < n → p.length < m →
    mkdirAllFuel n fs p = mkdirAllFuel m fs p := by
  intro n
  induction n with
  | zero => intro m fs p h; omega
  | succ n ih =>
    intro m fs p hn hm
    obtain ⟨k, rfl⟩ : ∃ k, m = k + 1 := ⟨m - 1, by omega⟩
    simp only [mkdirAllFuel]
    rcases mkdirAllParent_length p with h | h
    · simp only [h, if_true]
    · rw [ih k fs (mkdirAllParent p) (by omega) (by omega)]

/-- The calls of `MkdirAll` make directories only: the regular files stay the
same. -/
theorem isFile_MkdirAll {fs fs1 : FS} {p : Str} {e : Option Errno}
    (h : MkdirAll fs p = (e, fs1)) (q : Str) : isFile fs1 q = isFile fs q := by
  rcases (mkdirAllFuel_spec _ _ _ _ _ h).1 q with h1 | ⟨h1, h2, _⟩
  · exact isFile_congr h1
  · simp only [isFile, h1, h2]

theorem MkdirAll_dir {fs : FS} {p : Str} (h : Stat fs p = some Node.dir) :
    MkdirAll fs p = (none, fs) := by
  simp [MkdirAll, mkdirAllFuel, h]

theorem WriteFile_ok {fs fs1 : FS} {p data : Str} (h : WriteFile fs p data = .ok fs1) :
    fs1 = fs.insert p (Node.file data) ∧ isAmbient p = false ∧ walkErrno fs p = none := by
  unfold WriteFile at h
  split at h
  · cases h
  rename_i hwalk
  refine (fun h2 => ⟨h2.1, h2.2, hwalk⟩)
    (?_ : fs1 = fs.insert p (Node.file data) ∧ isAmbient p = false)
  split at h
  · cases h
  · rename_i d hs
    cases h
    refine ⟨rfl, ?_⟩
    unfold Stat at hs
    split at hs
    · cases hs
    · rename_i h1; simpa using h1
  · rename_i hs
    have hamb := Stat_none_not_ambient hs
    split at h
    · cases h; exact ⟨rfl, hamb⟩
    · cases h
    · cases h

theorem ReadFile_insert {fs : FS} {p data : Str} (h : isAmbient p = false) :
    ReadFile (fs.insert p (Node.file data)) p = .ok data := by
  simp [ReadFile, Stat_insert_self h]

theorem strLE_total : ∀ a b : Str, strLE a b = true ∨ strLE b a = true := by
  intro a
  induction a with
  | nil => intro b; left; simp [strLE]
  | cons x a ih =>
    intro b
    cases b with
    | nil => right; simp [strLE]
    | cons y b =>
      simp only [strLE, Bool.or_eq_true, decide_eq_true_eq, Bool.and_eq_true]
      rcases Nat.lt_trichotomy x y with h | h | h
      · exact Or.inl (Or.inl h)
      · rcases ih b with h1 | h1
        · exact Or.inl (Or.inr ⟨h, h1⟩)
        · exact Or.inr (Or.inr ⟨h.symm, h1⟩)
      · exact Or.inr (Or.inl h)

theorem strLE_trans : ∀ a b c : Str, strLE a b = true → strLE b c = true → strLE a c = true := by
  intro a
  induction a with
  | nil => intro b c _ _; simp [strLE]
  | cons x a ih =>
    intro b c h1 h2
    cases b with
    | nil => simp [strLE] at h1
    | cons y b =>
      cases c with
      | nil => simp [strLE] at h2
      | cons z c =>
        simp only [strLE, Bool.or_eq_true, decide_eq_true_eq, Bool.and_eq_true] at h1 h2 ⊢
        rcases h1 with h1 | ⟨h1, h1t⟩
        · rcases h2 with h2 | ⟨h2, _⟩
          · exact Or.inl (Nat.lt_trans h1 h2)
          · exact Or.inl (h2 ▸ h1)
        · rcases h2 with h2 | ⟨h2, h2t⟩
          · exact Or.inl (h1 ▸ h2)
          · exact Or.inr ⟨h1.trans h2, ih b c h1t h2t⟩

theorem strLE_antisymm : ∀ a b : Str, strLE a b = true → strLE b a = true → a = b := by
  intro a
  induction a with
  | nil =>
    intro b _ h2
    cases b with
    | nil => rfl
    | cons y b => simp [strLE] at h2
  | cons x a ih =>
    intro b h1 h2
    cases b with
    | nil => simp [strLE] at h1
    | cons y b =>
      simp only [strLE, Bool.or_eq_true, decide_eq_true_eq, Bool.and_eq_true] at h1 h2
      rcases h1 with h1 | ⟨h1, h1t⟩
      · rcases h2 with h2 | ⟨h2, _⟩
        · exact absurd h1 (Nat.lt_asymm h2)
        · exact absurd h1 (by omega)
      · rcases h2 with h2 | ⟨_, h2t⟩
        · exact absurd h2 (by omega)
        · rw [h1, ih b h1t h2t]

/-- Sorting by name does not depend on the order the names come in. -/
theorem insertionSort_perm {l1 l2 : List Str} (h : l1.Perm l2) :
    List.insertionSort (fun a b => strLE a b = true) l1 =
      List.insertionSort (fun a b => strLE a b = true) l2 := by
  have htot : IsTotal Str (fun a b => strLE a b = true) := ⟨strLE_total⟩
  have htr : IsTrans Str (fun a b => strLE a b = true) := ⟨strLE_trans⟩
  have hanti : IsAntisymm Str (fun a b => strLE a b = true) := ⟨strLE_antisymm⟩
  apply List.eq_of_perm_of_sorted (r := fun a b => strLE a b = true)
  · exact ((List.perm_insertionSort _ l1).trans h).trans (List.perm_insertionSort _ l2).symm
  · exact List.sorted_insertionSort _ l1
  · exact List.sorted_insertionSort _ l2

theorem Stat_file_lookup {fs : FS} {p : Str} {d : Str} (h : Stat fs p = some (Node.file d)) :
    isAmbient p = false ∧ fs.lookup p = some (Node.file d) := by
  unfold Stat at h
  split at h
  · cases h
  · rename_i h1
    exact ⟨by simpa using h1, h⟩

/-- Replacing the content of an existing file changes no directory listing. -/
theorem ReadDir_insert_file {fs : FS} {path d1 d2 : Str}
    (h : Stat fs path = some (Node.file d1)) (p : Str) :
    ReadDir (fs.insert path (Node.file d2)) p = ReadDir fs p := by
  obtain ⟨hamb, hlook⟩ := Stat_file_lookup h
  have hmem : path ∈ fs.keys := by
    have : (fs.lookup path).isSome = true := by simp [hlook]
    exact AList.mem_keys.mp (AList.lookup_isSome.mp this)
  have hperm : (fs.insert path (Node.file d2)).keys.Perm fs.keys := by
    rw [AList.keys_insert]
    exact (List.perm_cons_erase hmem).symm
  have hdir : ∀ q, (Stat (fs.insert path (Node.file d2)) q = some Node.dir) ↔
      (Stat fs q = some Node.dir) := by
    intro q
    by_cases hq : q = path
    · subst hq
      rw [Stat_insert_self hamb, h]
      simp
    · rw [Stat_insert_ne hq]
  unfold ReadDir
  by_cases hp : p = path
  · subst hp
    rw [Stat_insert_self hamb, h]
  · rw [Stat_insert_ne hp]
    cases hs : Stat fs p with
    | none =>
      simp only [absentErrno_congr (fun a _ => isFile_insert_file h a)]
    | some n =>
      cases n with
      | file d => rfl
      | dir =>
        simp only
        have hnames : List.insertionSort (fun a b => strLE a b = true)
              ((children (fs.insert path (Node.file d2)) p).map base) =
            List.insertionSort (fun a b => strLE a b = true) ((children fs p).map base) :=
          insertionSort_perm ((hperm.filter _).map base)
        rw [hnames]
        congr 1
        apply List.map_congr_left
        intro n _
        congr 1
        exact decide_eq_decide.mpr (hdir _)

end os

/-! ## Facts about the driver -/

theorem lit_json : lit ".json" = [46, 106, 115, 111, 110] := by decide

theorem lit_users : lit "users" = [117, 115, 101, 114, 115] := by decide

/-- A successful `Write`: both keys are non-empty, the collection directory was
made, and the file system is the one after `MkdirAll` with the encoded record
stored at the artifact's path. -/
theorem Driver.Write_ok {w w1 : World} {c r : Str} {v : User}
    (h : Driver.Write w c r v = (none, w1)) :
    c ≠ [] ∧ r ≠ [] ∧ w1.db.dir = w.db.dir ∧
      ∃ fs1, os.MkdirAll w.fs (filepath.Join [w.db.dir, c]) = (none, fs1) ∧
        w1.fs = fs1.insert (filepath.Join [w.db.dir, c, r ++ lit ".json"])
          (os.Node.file (json.MarshalIndent v)) ∧
        os.isAmbient (filepath.Join [w.db.dir, c, r ++ lit ".json"]) = false := by
  unfold Driver.Write at h
  split at h
  · cases h
  · rename_i hk
    simp only [not_or] at hk
    simp only [Driver.getOrCreateMutex] at h
    split at h
    · cases h
    · rename_i fs1 hmk
      rw [filepath.Join_Join _ _ _ hk.1] at h
      split at h
      · cases h
      · rename_i fs2 hwf
        simp only [Prod.mk.injEq, true_and] at h
        obtain ⟨hfs, hamb, _⟩ := os.WriteFile_ok hwf
        subst h
        exact ⟨hk.1, hk.2, rfl, fs1, hmk, hfs, hamb⟩

/-- After a successful `Write` the walk to the artifact's path gets through: the
path has no NUL byte and none of its ancestors is a regular file. -/
theorem Driver.Write_walk {w w1 : World} {c r : Str} {v : User}
    (h : Driver.Write w c r v = (none, w1)) :
    os.walkErrno w1.fs (filepath.Join [w.db.dir, c, r ++ lit ".json"]) = none := by
  unfold Driver.Write at h
  split at h
  · cases h
  · rename_i hk
    simp only [not_or] at hk
    simp only [Driver.getOrCreateMutex] at h
    split at h
    · cases h
    · rename_i fs1 hmk
      rw [filepath.Join_Join _ _ _ hk.1] at h
      split at h
      · cases h
      · rename_i fs2 hwf
        simp only [Prod.mk.injEq, true_and] at h
        obtain ⟨hfs, _, hwalk⟩ := os.WriteFile_ok hwf
        subst h
        show os.walkErrno fs2 _ = none
        rw [hfs, os.walkErrno_insert_self]
        exact hwalk

/-- Reading back what `Write` stored: the record, each field coerced to
valid UTF-8. -/
theorem Driver.Read_after_Write {w w1 : World} {c r : Str} {v : User}
    (h : Driver.Write w c r v = (none, w1)) :
    Driver.Read w1 c r = .ok (json.coerceUser v) := by
  obtain ⟨hc, hr, hdir, fs1, _, hfs, hamb⟩ := Driver.Write_ok h
  have hrf : os.ReadFile (fs1.insert (filepath.Join [w.db.dir, c, r ++ lit ".json"])
      (os.Node.file (json.MarshalIndent v))) (filepath.Join [w.db.dir, c, r ++ lit ".json"])
      = .ok (json.MarshalIndent v) := os.ReadFile_insert hamb
  simp [Driver.Read, hc, hr, hdir, hfs, hrf, json.Unmarshal_MarshalIndent]

/-- The store `freshStore` is what `New` returns for `./data` on an empty file system. -/
theorem freshStore_eq_New : New ∅ (lit "./data") = .ok freshStore := by decide

/-- The controller `CreateUser` answers 201 with the record exactly when the
`Write` it makes succeeds, and passes on the state `Write` leaves. -/
theorem CreateUser_created (w w1 : World) (R : User) :
    CreateUser w (some R) = (⟨StatusCreated, .user R⟩, w1) ↔
      Driver.Write w (lit "users") R.Name R = (none, w1) := by
  constructor
  · intro h
    simp only [CreateUser] at h
    cases hw : Driver.Write w (lit "users") R.Name R with
    | mk err w2 =>
      rw [hw] at h
      cases err with
      | some e =>
        simp only [Prod.mk.injEq, Response.mk.injEq] at h
        exact absurd h.1.1 (by decide)
      | none =>
        simp only [Prod.mk.injEq, true_and] at h
        rw [h]
  · intro h
    simp [CreateUser, h]

/-! ## The properties -/

/-- C1 (as amended).  Round trip: in every state, for every record `R` with a
non-empty name whose eight fields are valid UTF-8, if
`Write("users", R.Name, R)` succeeds, then `Read("users", R.Name)` in the
resulting state succeeds and yields exactly `R`, and `GetUser` answers 200 with
`R`. -/
theorem create_then_fetch_roundtrip (w w1 : World) (R : User) (_hname : R.Name ≠ [])
    (hvalid : json.ValidUser R)
    (hcreate : Driver.Write w (lit "users") R.Name R = (none, w1)) :
    Driver.Read w1 (lit "users") R.Name = .ok R ∧
      GetUser w1 R.Name = ⟨StatusOK, .user R⟩ := by
  have h := Driver.Read_after_Write hcreate
  rw [json.coerceUser_valid hvalid] at h
  exact ⟨h, by simp [GetUser, h]⟩

set_option maxRecDepth 1000000 in
/-- The round trip at the record `sampleUser "a"` in the fresh store. -/
theorem create_then_fetch_roundtrip_witness :
    Driver.Read (afterCreate freshStore (sampleUser "a")) (lit "users") (sampleUser "a").Name
        = .ok (sampleUser "a") ∧
      GetUser (afterCreate freshStore (sampleUser "a")) (sampleUser "a").Name
        = ⟨StatusOK, .user (sampleUser "a")⟩ :=
  create_then_fetch_roundtrip freshStore (afterCreate freshStore (sampleUser "a"))
    (sampleUser "a") (by decide)
    ⟨by decide, by decide, by decide, by decide, by decide, by decide, by decide, by decide⟩
    (by decide)

set_option maxRecDepth 1000000 in
/-- C1 as stated fails: the record `rawByteUser` has a non-empty name, its
`Write` succeeds, and the `Read` that follows succeeds with a different record
(the `Age` byte `0xFF` comes back as U+FFFD). -/
theorem create_then_fetch_invalid_utf8 :
    rawByteUser.Name ≠ [] ∧
      (Driver.Write freshStore (lit "users") rawByteUser.Name rawByteUser).1 = none ∧
      Driver.Read (afterCreate freshStore rawByteUser) (lit "users") rawByteUser.Name
        = .ok { rawByteUser with Age := [0xEF, 0xBF, 0xBD] } ∧
      Driver.Read (afterCreate freshStore rawByteUser) (lit "users") rawByteUser.Name
        ≠ .ok rawByteUser := by
  decide

/-- C4.  Deletion: in every state, for every record `R` with a non-empty name,
after a successful `Write("users", R.Name, R)` the call
`Delete("users", R.Name)` succeeds (`DeleteUser` answers 200), and in the state
it leaves `Read("users", R.Name)` fails because the file does not exist and
`GetUser` answers 404. -/
theorem create_remove_fetch_not_found (w w1 : World) (R : User) (_hname : R.Name ≠ [])
    (hcreate : Driver.Write w (lit "users") R.Name R = (none, w1)) :
    ∃ w2, Driver.Delete w1 (lit "users") R.Name = (none, w2) ∧
      DeleteUser w1 R.Name = (⟨StatusOK, .text (.userDeleted R.Name)⟩, w2) ∧
      Driver.Read w2 (lit "users") R.Name = .error (.couldNotReadFile .ENOENT) ∧
      GetUser w2 R.Name = ⟨StatusNotFound, .text (.userNotFound (.couldNotReadFile .ENOENT))⟩ := by
  obtain ⟨hc, hr, hdir, fs1, _, hfs, hamb⟩ := Driver.Write_ok hcreate
  have hwalk := Driver.Write_walk hcreate
  rw [← hdir] at hamb hfs hwalk
  have hstat : os.Stat w1.fs (filepath.Join [w1.db.dir, lit "users", R.Name ++ lit ".json"]) =
      some (os.Node.file (json.MarshalIndent R)) := by
    rw [hfs]; exact os.Stat_insert_self hamb
  have habs : os.absentErrno
      (w1.fs.erase (filepath.Join [w1.db.dir, lit "users", R.Name ++ lit ".json"]))
      (filepath.Join [w1.db.dir, lit "users", R.Name ++ lit ".json"]) = .ENOENT :=
    os.absentErrno_of_walk (by rw [os.walkErrno_erase_self]; exact hwalk)
  have hgone : os.Stat
      (w1.fs.erase (filepath.Join [w1.db.dir, lit "users", R.Name ++ lit ".json"]))
      (filepath.Join [w1.db.dir, lit "users", R.Name ++ lit ".json"]) = none :=
    os.Stat_erase_self hamb
  have hdel : Driver.Delete w1 (lit "users") R.Name =
      (none, ⟨w1.db, w1.fs.erase (filepath.Join [w1.db.dir, lit "users", R.Name ++ lit ".json"]),
        w1.allocated⟩) := by
    simp [Driver.Delete, os.Remove, hstat]
  have hread : Driver.Read
      ⟨w1.db, w1.fs.erase (filepath.Join [w1.db.dir, lit "users", R.Name ++ lit ".json"]),
        w1.allocated⟩ (lit "users") R.Name = .error (.couldNotReadFile .ENOENT) := by
    simp [Driver.Read, hc, hr, os.ReadFile, hgone, habs]
  exact ⟨_, hdel, by simp [DeleteUser, hdel], hread, by simp [GetUser, hread]⟩

set_option maxRecDepth 1000000 in
/-- Deletion at the record `sampleUser "a"` in the fresh store. -/
theorem create_remove_fetch_not_found_witness :
    ∃ w2, Driver.Delete (afterCreate freshStore (sampleUser "a")) (lit "users")
        (sampleUser "a").Name = (none, w2) ∧
      DeleteUser (afterCreate freshStore (sampleUser "a")) (sampleUser "a").Name =
        (⟨StatusOK, .text (.userDeleted (sampleUser "a").Name)⟩, w2) ∧
      Driver.Read w2 (lit "users") (sampleUser "a").Name = .error (.couldNotReadFile .ENOENT) ∧
      GetUser w2 (sampleUser "a").Name =
        ⟨StatusNotFound, .text (.userNotFound (.couldNotReadFile .ENOENT))⟩ :=
  create_remove_fetch_not_found freshStore (afterCreate freshStore (sampleUser "a"))
    (sampleUser "a") (by decide) (by decide)

/-- Both `Write` and `Read` validate their keys: with an empty collection or an
empty resource they return the "missing collection or resource" error and leave
the state as it is. -/
theorem Write_Read_validate_keys (w : World) (c r : Str) (v : User) (h : c = [] ∨ r = []) :
    Driver.Write w c r v = (some .missingKey, w) ∧ Driver.Read w c r = .error .missingKey := by
  simp [Driver.Write, Driver.Read, h]

set_option maxRecDepth 1000000 in
/-- C2, at the input where the code departs from it.  `Delete` has no key
check: called with the empty collection and the resource `users/a` in the state
after a record named `a` was created, it returns no error and removes that
record's file. -/
theorem delete_accepts_empty_collection :
    Driver.Delete (afterCreate freshStore (sampleUser "a")) [] (lit "users/a") =
        (none, { afterCreate freshStore (sampleUser "a") with
                  fs := (afterCreate freshStore (sampleUser "a")).fs.erase
                    (lit "data/users/a.json") }) ∧
      os.Stat (afterCreate freshStore (sampleUser "a")).fs (lit "data/users/a.json")
        = some (os.Node.file (json.MarshalIndent (sampleUser "a"))) ∧
      os.Stat (Driver.Delete (afterCreate freshStore (sampleUser "a")) [] (lit "users/a")).2.fs
        (lit "data/users/a.json") = none := by
  decide

/-- C7 (as amended).  The controllers do not tell failures apart: `GetUser`
answers 404 for every error of `Read`, whatever its cause, and 200 with the
record when `Read` succeeds; `DeleteUser` answers 404 for every error of
`Delete` and 200 when it succeeds. -/
theorem gateway_maps_every_failure_to_not_found (w : World) (id : Str) :
    (∀ err, Driver.Read w (lit "users") id = .error err →
        GetUser w id = ⟨StatusNotFound, .text (.userNotFound err)⟩) ∧
    (∀ user, Driver.Read w (lit "users") id = .ok user →
        GetUser w id = ⟨StatusOK, .user user⟩) ∧
    (∀ err w1, Driver.Delete w (lit "users") id = (some err, w1) →
        DeleteUser w id = (⟨StatusNotFound, .text (.errorDeletingUser err)⟩, w1)) ∧
    (∀ w1, Driver.Delete w (lit "users") id = (none, w1) →
        DeleteUser w id = (⟨StatusOK, .text (.userDeleted id)⟩, w1)) := by
  refine ⟨?_, ?_, ?_, ?_⟩
  · intro err h; simp [GetUser, h]
  · intro user h; simp [GetUser, h]
  · intro err w1 h; simp [DeleteUser, h]
  · intro w1 h; simp [DeleteUser, h]

/-- C7 as stated fails: with the empty identifier `Read` fails on the key
check, not because a resource is absent, and `GetUser` still answers 404, the
"not found" outcome. -/
theorem fetch_empty_identifier_reports_not_found :
    Driver.Read freshStore (lit "users") [] = .error .missingKey ∧
      DriverError.isAbsent .missingKey = false ∧
      (GetUser freshStore []).status = StatusNotFound := by
  decide

/-- C8, at the input where the code departs from it.  `getOrCreateMutex`
stores a new mutex on every call: two calls for `users` return different
mutexes, and the second replaces the map entry the first one made. -/
theorem getOrCreateMutex_replaces_existing_lock :
    (Driver.getOrCreateMutex freshStore (lit "users")).1 = 0 ∧
      (Driver.getOrCreateMutex freshStore (lit "users")).2.db.mutexes.lookup (lit "users")
        = some 0 ∧
      (Driver.getOrCreateMutex (Driver.getOrCreateMutex freshStore (lit "users")).2
        (lit "users")).1 = 1 ∧
      (Driver.getOrCreateMutex (Driver.getOrCreateMutex freshStore (lit "users")).2
        (lit "users")).2.db.mutexes.lookup (lit "users") = some 1 := by
  decide

set_option maxRecDepth 1000000 in
/-- C9.  Path traversal is not blocked: the keys `users` and `../x` are both
non-empty, the path that `Write` builds for them and the one that `Read` and
`Delete` build is `data/x.json`, which is not inside `data/users`.  `Write`
passes the key check and stores the file at `data/x.json` (the directory
`data/users` stays empty, `data` gets the entry `x.json`); `Read` reads the
record back from there; `Delete` returns no error and removes the file at
`data/x.json`: after it the path names nothing, the file system is the one
before with that path erased, and `data` has lost the entry. -/
theorem path_traversal_not_blocked :
    lit "users" ≠ [] ∧ lit "../x" ≠ [] ∧
      filepath.Join [filepath.Join [freshStore.db.dir, lit "users"], lit "../x" ++ lit ".json"]
        = lit "data/x.json" ∧
      artifactPath freshStore (lit "users") (lit "../x") = lit "data/x.json" ∧
      liesInside (filepath.Join [freshStore.db.dir, lit "users"]) (lit "data/x.json") = false ∧
      (Driver.Write freshStore (lit "users") (lit "../x") (sampleUser "x")).1 = none ∧
      os.Stat (Driver.Write freshStore (lit "users") (lit "../x") (sampleUser "x")).2.fs
        (lit "data/x.json") = some (os.Node.file (json.MarshalIndent (sampleUser "x"))) ∧
      Driver.Read (Driver.Write freshStore (lit "users") (lit "../x") (sampleUser "x")).2
        (lit "users") (lit "../x") = .ok (sampleUser "x") ∧
      (Driver.Delete (Driver.Write freshStore (lit "users") (lit "../x") (sampleUser "x")).2
        (lit "users") (lit "../x")).1 = none ∧
      os.Stat (Driver.Delete (Driver.Write freshStore (lit "users") (lit "../x")
        (sampleUser "x")).2 (lit "users") (lit "../x")).2.fs (lit "data/x.json") = none ∧
      (Driver.Delete (Driver.Write freshStore (lit "users") (lit "../x") (sampleUser "x")).2
        (lit "users") (lit "../x")).2.fs =
        (Driver.Write freshStore (lit "users") (lit "../x") (sampleUser "x")).2.fs.erase
          (lit "data/x.json") ∧
      os.ReadDir (Driver.Write freshStore (lit "users") (lit "../x") (sampleUser "x")).2.fs
        (lit "data/users") = .ok [] ∧
      os.ReadDir (Driver.Write freshStore (lit "users") (lit "../x") (sampleUser "x")).2.fs
        (lit "data") = .ok [⟨lit "users", true⟩, ⟨lit "x.json", false⟩] ∧
      os.ReadDir (Driver.Delete (Driver.Write freshStore (lit "users") (lit "../x")
        (sampleUser "x")).2 (lit "users") (lit "../x")).2.fs (lit "data")
        = .ok [⟨lit "users", true⟩] := by
  decide

theorem os.ReadFile_congr {fs1 fs2 : os.FS} {p : Str} (h : os.Stat fs2 p = os.Stat fs1 p)
    (herr : os.absentErrno fs2 p = os.absentErrno fs1 p) :
    os.ReadFile fs2 p = os.ReadFile fs1 p := by
  simp only [os.ReadFile, h, herr]

/-- The artifact path of a key made of plain names is not an ancestor of the
artifact path of another such key. -/
theorem artifactPath_not_ancestor (w : World) {c r c1 r1 : Str}
    (hc : filepath.IsName c) (hr : filepath.IsName r)
    (hc1 : filepath.IsName c1) (hr1 : filepath.IsName r1) :
    artifactPath w c r ∉ os.ancestors (artifactPath w c1 r1) := by
  intro h
  obtain ⟨_, t, ht⟩ := os.mem_ancestors.mp h
  simp only [artifactPath, lit_json] at ht
  rw [filepath.Join_three _ hc (filepath.IsName_json hr.2.1),
    filepath.Join_three _ hc1 (filepath.IsName_json hr1.2.1)] at ht
  simp only [List.append_assoc, List.append_cancel_left_eq, List.cons_append] at ht
  obtain ⟨_, h2⟩ := filepath.split_unique hc1.2.1 hc.2.1 ht
  apply (filepath.IsName_json hr1.2.1).2.1
  rw [h2]
  simp [filepath.Separator]

/-- The artifact paths of two different keys made of plain names differ. -/
theorem artifactPath_injective (w : World) {c r c1 r1 : Str}
    (hc : filepath.IsName c) (hr : filepath.IsName r)
    (hc1 : filepath.IsName c1) (hr1 : filepath.IsName r1) (hne : (c, r) ≠ (c1, r1)) :
    artifactPath w c r ≠ artifactPath w c1 r1 := by
  intro h
  simp only [artifactPath, lit_json] at h
  rw [filepath.Join_three _ hc (filepath.IsName_json hr.2.1),
    filepath.Join_three _ hc1 (filepath.IsName_json hr1.2.1)] at h
  simp only [List.append_assoc, List.append_cancel_left_eq] at h
  obtain ⟨h1, h2⟩ := filepath.split_unique hc.2.1 hc1.2.1 h
  have h3 : r = r1 := List.append_cancel_right h2
  exact hne (by rw [h1, h3])

/-- C10.  `Write` touches only its own resource: in every state, for two
different keys `(c, r)` and `(c1, r1)` whose four components are plain names
(non-empty, no separator, not `.` or `..`), the artifact paths differ, and a
successful `Write(c, r, v)` leaves the result of `Read(c1, r1)` exactly as it
was. -/
theorem write_frames_other_resources (w w1 : World) (c r c1 r1 : Str) (v : User)
    (hc : filepath.IsName c) (hr : filepath.IsName r)
    (hc1 : filepath.IsName c1) (hr1 : filepath.IsName r1) (hne : (c, r) ≠ (c1, r1))
    (hwrite : Driver.Write w c r v = (none, w1)) :
    artifactPath w c r ≠ artifactPath w c1 r1 ∧
      Driver.Read w1 c1 r1 = Driver.Read w c1 r1 := by
  have hpaths := artifactPath_injective w hc hr hc1 hr1 hne
  refine ⟨hpaths, ?_⟩
  obtain ⟨_, _, hdir, fs1, hmk, hfs, _⟩ := Driver.Write_ok hwrite
  have hstat : os.Stat w1.fs (artifactPath w c1 r1) = os.Stat w.fs (artifactPath w c1 r1) := by
    have hfs1 : w1.fs = fs1.insert (artifactPath w c r) (os.Node.file (json.MarshalIndent v)) :=
      hfs
    rw [hfs1, os.Stat_insert_ne (Ne.symm hpaths)]
    rcases (os.mkdirAllFuel_spec _ _ _ _ _ hmk).1 (artifactPath w c1 r1) with h | ⟨_, _, h⟩
    · exact h
    · exfalso
      simp only [artifactPath, lit_json] at h
      rw [filepath.Join_three _ hc1 (filepath.IsName_json hr1.2.1), filepath.Join_two _ hc,
        List.append_assoc, List.prefix_append_right_inj] at h
      obtain ⟨t, ht⟩ := h
      apply hc.2.1
      rw [← ht]
      simp
  have herr : os.absentErrno w1.fs (artifactPath w c1 r1) =
      os.absentErrno w.fs (artifactPath w c1 r1) := by
    apply os.absentErrno_congr
    intro a ha
    have hfs1 : w1.fs = fs1.insert (artifactPath w c r) (os.Node.file (json.MarshalIndent v)) :=
      hfs
    have hne1 : a ≠ artifactPath w c r :=
      fun h => artifactPath_not_ancestor w hc hr hc1 hr1 (h ▸ ha)
    rw [hfs1, os.isFile_congr (os.Stat_insert_ne hne1)]
    exact os.isFile_MkdirAll hmk a
  have hread := os.ReadFile_congr hstat herr
  simp only [artifactPath] at hread
  simp only [Driver.Read, hdir, hread]

set_option maxRecDepth 1000000 in
/-- Writing the record `a` next to the record `b`: reading `b` is unchanged. -/
theorem write_frames_other_resources_witness :
    artifactPath (afterCreate freshStore (sampleUser "b")) (lit "users") (lit "a") ≠
        artifactPath (afterCreate freshStore (sampleUser "b")) (lit "users") (lit "b") ∧
      Driver.Read (afterCreate (afterCreate freshStore (sampleUser "b")) (sampleUser "a"))
          (lit "users") (lit "b") =
        Driver.Read (afterCreate freshStore (sampleUser "b")) (lit "users") (lit "b") :=
  write_frames_other_resources (afterCreate freshStore (sampleUser "b"))
    (afterCreate (afterCreate freshStore (sampleUser "b")) (sampleUser "a"))
    (lit "users") (lit "a") (lit "users") (lit "b") (sampleUser "a")
    ⟨by decide, by decide, by decide, by decide⟩ ⟨by decide, by decide, by decide, by decide⟩
    ⟨by decide, by decide, by decide, by decide⟩ ⟨by decide, by decide, by decide, by decide⟩
    (by decide) (by decide)

theorem os.MkdirAll_file {fs : os.FS} {p d : Str} (h : os.Stat fs p = some (os.Node.file d)) :
    os.MkdirAll fs p = (some .ENOTDIR, fs) := by
  simp [os.MkdirAll, os.mkdirAllFuel, h]

/-- A second successful `Write` to the key of a first one only replaces the
content of the file the first one stored. -/
theorem Driver.Write_again {w w1 w2 : World} {c r : Str} {v v1 : User}
    (h1 : Driver.Write w c r v = (none, w1)) (h2 : Driver.Write w1 c r v1 = (none, w2)) :
    os.Stat w1.fs (artifactPath w1 c r) = some (os.Node.file (json.MarshalIndent v)) ∧
      w2.fs = w1.fs.insert (artifactPath w1 c r) (os.Node.file (json.MarshalIndent v1)) ∧
      os.isAmbient (artifactPath w1 c r) = false ∧ w2.db.dir = w1.db.dir := by
  obtain ⟨_, _, hdir, fs1, hmk, hfs, hamb⟩ := Driver.Write_ok h1
  obtain ⟨_, _, hdir2, fs2, hmk2, hfs2, _⟩ := Driver.Write_ok h2
  rw [← hdir] at hmk hfs hamb
  have hfile : os.Stat w1.fs (artifactPath w1 c r) = some (os.Node.file (json.MarshalIndent v)) := by
    unfold artifactPath
    rw [hfs]
    exact os.Stat_insert_self hamb
  have hD : os.Stat fs1 (filepath.Join [w1.db.dir, c]) = some os.Node.dir :=
    (os.mkdirAllFuel_spec _ _ _ _ _ hmk).2 rfl
  have hne : filepath.Join [w1.db.dir, c] ≠ filepath.Join [w1.db.dir, c, r ++ lit ".json"] := by
    intro he
    have hf := hfile
    unfold artifactPath at hf
    rw [← he] at hf
    rw [os.MkdirAll_file hf] at hmk2
    cases hmk2
  have hD1 : os.Stat w1.fs (filepath.Join [w1.db.dir, c]) = some os.Node.dir := by
    rw [hfs, os.Stat_insert_ne hne]
    exact hD
  rw [os.MkdirAll_dir hD1] at hmk2
  simp only [Prod.mk.injEq, true_and] at hmk2
  subst hmk2
  exact ⟨hfile, hfs2, hamb, hdir2⟩

/-- C3 (as amended).  Overwrite: in every state, for two records `R` and `R1`
with the same non-empty name, after `Write` of `R` and then of `R1` both
succeed: the second `Write` added no path to the file system and changed no
directory listing; the artifact of the name is one file, holding the encoding
of `R1`; and `Read` of the name yields `R1` with every field coerced to valid
UTF-8.  When the fields of `R1` are valid UTF-8 that is `R1` itself (so not
`R`, when they differ). -/
theorem create_twice_overwrites (w w1 w2 : World) (R R1 : User) (_hname : R.Name ≠ [])
    (hsame : R1.Name = R.Name)
    (hfirst : Driver.Write w (lit "users") R.Name R = (none, w1))
    (hsecond : Driver.Write w1 (lit "users") R1.Name R1 = (none, w2)) :
    w2.fs.keys.Perm w1.fs.keys ∧
      (∀ p, os.ReadDir w2.fs p = os.ReadDir w1.fs p) ∧
      os.Stat w1.fs (artifactPath w1 (lit "users") R.Name)
        = some (os.Node.file (json.MarshalIndent R)) ∧
      artifactPath w2 (lit "users") R.Name = artifactPath w1 (lit "users") R.Name ∧
      os.Stat w2.fs (artifactPath w2 (lit "users") R.Name)
        = some (os.Node.file (json.MarshalIndent R1)) ∧
      Driver.Read w2 (lit "users") R.Name = .ok (json.coerceUser R1) ∧
      GetUser w2 R.Name = ⟨StatusOK, .user (json.coerceUser R1)⟩ ∧
      (json.ValidUser R1 →
        Driver.Read w2 (lit "users") R.Name = .ok R1 ∧
        GetUser w2 R.Name = ⟨StatusOK, .user R1⟩ ∧
        (R1 ≠ R → Driver.Read w2 (lit "users") R.Name ≠ .ok R)) := by
  have hread := Driver.Read_after_Write hsecond
  rw [hsame] at hread
  rw [hsame] at hsecond
  obtain ⟨hfile, hfs, hamb, hdir⟩ := Driver.Write_again hfirst hsecond
  obtain ⟨_, hlook⟩ := os.Stat_file_lookup hfile
  have hmem : artifactPath w1 (lit "users") R.Name ∈ w1.fs.keys := by
    have : (w1.fs.lookup (artifactPath w1 (lit "users") R.Name)).isSome = true := by
      simp [hlook]
    exact AList.mem_keys.mp (AList.lookup_isSome.mp this)
  have hpath : artifactPath w2 (lit "users") R.Name = artifactPath w1 (lit "users") R.Name := by
    simp only [artifactPath, hdir]
  refine ⟨?_, ?_, hfile, hpath, ?_, hread, by simp [GetUser, hread], ?_⟩
  · rw [hfs, AList.keys_insert]
    exact (List.perm_cons_erase hmem).symm
  · intro p
    rw [hfs]
    exact os.ReadDir_insert_file hfile p
  · rw [hpath, hfs]
    exact os.Stat_insert_self hamb
  · intro hvalid
    rw [json.coerceUser_valid hvalid] at hread
    refine ⟨hread, by simp [GetUser, hread], ?_⟩
    intro hne heq
    rw [hread] at heq
    exact hne (Except.ok.inj heq)

set_option maxRecDepth 1000000 in
/-- Overwriting `sampleUser "a"` in the fresh store by the same record with another city. -/
theorem create_twice_overwrites_witness :
    json.ValidUser { sampleUser "a" with City := lit "Goa" } ∧
      (afterCreate (afterCreate freshStore (sampleUser "a"))
        { sampleUser "a" with City := lit "Goa" }).fs.keys.Perm
        (afterCreate freshStore (sampleUser "a")).fs.keys ∧
      (∀ p, os.ReadDir (afterCreate (afterCreate freshStore (sampleUser "a"))
          { sampleUser "a" with City := lit "Goa" }).fs p
        = os.ReadDir (afterCreate freshStore (sampleUser "a")).fs p) ∧
      os.Stat (afterCreate freshStore (sampleUser "a")).fs
          (artifactPath (afterCreate freshStore (sampleUser "a")) (lit "users")
            (sampleUser "a").Name)
        = some (os.Node.file (json.MarshalIndent (sampleUser "a"))) ∧
      artifactPath (afterCreate (afterCreate freshStore (sampleUser "a"))
          { sampleUser "a" with City := lit "Goa" }) (lit "users") (sampleUser "a").Name
        = artifactPath (afterCreate freshStore (sampleUser "a")) (lit "users")
          (sampleUser "a").Name ∧
      os.Stat (afterCreate (afterCreate freshStore (sampleUser "a"))
          { sampleUser "a" with City := lit "Goa" }).fs
          (artifactPath (afterCreate (afterCreate freshStore (sampleUser "a"))
            { sampleUser "a" with City := lit "Goa" }) (lit "users") (sampleUser "a").Name)
        = some (os.Node.file (json.MarshalIndent { sampleUser "a" with City := lit "Goa" })) ∧
      Driver.Read (afterCreate (afterCreate freshStore (sampleUser "a"))
          { sampleUser "a" with City := lit "Goa" }) (lit "users") (sampleUser "a").Name
        = .ok (json.coerceUser { sampleUser "a" with City := lit "Goa" }) ∧
      GetUser (afterCreate (afterCreate freshStore (sampleUser "a"))
          { sampleUser "a" with City := lit "Goa" }) (sampleUser "a").Name
        = ⟨StatusOK, .user (json.coerceUser { sampleUser "a" with City := lit "Goa" })⟩ ∧
      (json.ValidUser { sampleUser "a" with City := lit "Goa" } →
        Driver.Read (afterCreate (afterCreate freshStore (sampleUser "a"))
            { sampleUser "a" with City := lit "Goa" }) (lit "users") (sampleUser "a").Name
          = .ok { sampleUser "a" with City := lit "Goa" } ∧
        GetUser (afterCreate (afterCreate freshStore (sampleUser "a"))
            { sampleUser "a" with City := lit "Goa" }) (sampleUser "a").Name
          = ⟨StatusOK, .user { sampleUser "a" with City := lit "Goa" }⟩ ∧
        ({ sampleUser "a" with City := lit "Goa" } ≠ sampleUser "a" →
          Driver.Read (afterCreate (afterCreate freshStore (sampleUser "a"))
            { sampleUser "a" with City := lit "Goa" }) (lit "users") (sampleUser "a").Name
          ≠ .ok (sampleUser "a"))) :=
  ⟨⟨by decide, by decide, by decide, by decide, by decide, by decide, by decide, by decide⟩,
    create_twice_overwrites freshStore (afterCreate freshStore (sampleUser "a"))
      (afterCreate (afterCreate freshStore (sampleUser "a"))
        { sampleUser "a" with City := lit "Goa" })
      (sampleUser "a") { sampleUser "a" with City := lit "Goa" } (by decide) (by decide)
      (by decide) (by decide)⟩

set_option maxRecDepth 1000000 in
/-- C3 as stated fails: `rawByteUser` and the record that has U+FFFD where
`rawByteUser` has the byte `0xFF` are different records with the same
non-empty name; after the `Write` of the latter and then of `rawByteUser` both
succeed, the `Read` that follows yields the record written first, not
`rawByteUser`, the record written last. -/
theorem create_twice_invalid_utf8 :
    rawByteUser.Name ≠ [] ∧
      rawByteUser ≠ { rawByteUser with Age := [0xEF, 0xBF, 0xBD] } ∧
      rawByteUser.Name = ({ rawByteUser with Age := [0xEF, 0xBF, 0xBD] } : User).Name ∧
      (Driver.Write freshStore (lit "users") rawByteUser.Name
        { rawByteUser with Age := [0xEF, 0xBF, 0xBD] }).1 = none ∧
      (Driver.Write (afterCreate freshStore { rawByteUser with Age := [0xEF, 0xBF, 0xBD] })
        (lit "users") rawByteUser.Name rawByteUser).1 = none ∧
      Driver.Read
          (afterCreate (afterCreate freshStore { rawByteUser with Age := [0xEF, 0xBF, 0xBD] })
            rawByteUser)
          (lit "users") rawByteUser.Name = .ok { rawByteUser with Age := [0xEF, 0xBF, 0xBD] } ∧
      Driver.Read
          (afterCreate (afterCreate freshStore { rawByteUser with Age := [0xEF, 0xBF, 0xBD] })
            rawByteUser)
          (lit "users") rawByteUser.Name ≠ .ok rawByteUser := by
  decide

/-! ### Listing -/

theorem os.base_noSep (q : Str) : filepath.Separator ∉ os.base q := by
  intro h
  unfold os.base at h
  rw [List.mem_reverse] at h
  have := List.mem_takeWhile_imp h
  simp at this

theorem os.ReadDir_names_noSep {fs : os.FS} {p : Str} {files : List os.DirEntry}
    (h : os.ReadDir fs p = .ok files) : ∀ e ∈ files, filepath.Separator ∉ e.Name := by
  unfold os.ReadDir at h
  split at h
  · cases h
  · cases h
  · simp only [Except.ok.injEq] at h
    subst h
    intro e he
    simp only [List.mem_map] at he
    obtain ⟨n, hn, rfl⟩ := he
    rw [List.mem_insertionSort] at hn
    simp only [List.mem_map] at hn
    obtain ⟨q, _, rfl⟩ := hn
    exact os.base_noSep q

theorem filepath.extFrom_suffix : ∀ (rev acc : Str), filepath.extFrom rev acc ≠ [] →
    ∃ pre, rev.reverse ++ acc = pre ++ filepath.extFrom rev acc := by
  intro rev
  induction rev with
  | nil => intro acc h; simp [filepath.extFrom] at h
  | cons b rev ih =>
    intro acc h
    unfold filepath.extFrom at h ⊢
    split
    · rename_i hb; rw [if_pos hb] at h; exact absurd rfl h
    · rename_i hb
      rw [if_neg hb] at h
      split
      · rename_i hd
        exact ⟨rev.reverse, by simp [hd]⟩
      · rename_i hd
        rw [if_neg hd] at h
        obtain ⟨pre, hpre⟩ := ih (b :: acc) h
        exact ⟨pre, by simpa using hpre⟩

/-- A name with the extension `.json` is a stem followed by `.json`, and the
stem is what `GetAllUsers` cuts off. -/
theorem filepath.Ext_json {n : Str} (h : filepath.Ext n = lit ".json") :
    n = n.take (n.length - (lit ".json").length) ++ lit ".json" := by
  have hne : filepath.extFrom n.reverse [] ≠ [] := by
    have : filepath.extFrom n.reverse [] = lit ".json" := h
    rw [this, lit_json]; simp
  obtain ⟨pre, hpre⟩ := filepath.extFrom_suffix n.reverse [] hne
  have h1 : filepath.extFrom n.reverse [] = lit ".json" := h
  rw [h1] at hpre
  simp only [List.reverse_reverse, List.append_nil] at hpre
  have hlen : n.length - (lit ".json").length = pre.length := by
    rw [hpre]; simp
  rw [hlen]
  conv_lhs => rw [hpre]
  rw [hpre, List.take_left']
  rfl

theorem IsName_users : filepath.IsName (lit "users") := ⟨by decide, by decide, by decide, by decide⟩

/-- The path `Read` builds for a plain file name of the `users` directory is
the path of that directory entry. -/
theorem artifactPath_users (w : World) {stem : Str} (h : filepath.Separator ∉ stem) :
    artifactPath w (lit "users") stem = usersDir w ++ filepath.Separator :: (stem ++ lit ".json") := by
  simp only [artifactPath, usersDir, lit_json]
  rw [filepath.Join_three _ IsName_users (filepath.IsName_json h),
    filepath.Join_two _ IsName_users]

/-- One iteration of the loop of `GetAllUsers` appends the record of the entry,
if it has one. -/
theorem getAllUsersStep_eq (w : World) (users : List User) (e : os.DirEntry)
    (hsep : filepath.Separator ∉ e.Name) :
    getAllUsersStep w users e = users ++ (entryRecord w e).toList := by
  unfold getAllUsersStep entryRecord
  by_cases h1 : e.IsDir = true ∨ filepath.Ext e.Name ≠ lit ".json"
  · rw [if_pos h1, if_pos (by tauto)]
    simp
  · rw [if_neg h1]
    simp only [not_or, not_not] at h1
    have hn := filepath.Ext_json h1.2
    have hstem : filepath.Separator ∉ e.Name.take (e.Name.length - (lit ".json").length) :=
      fun hm => hsep (List.mem_of_mem_take hm)
    by_cases h2 : e.Name.take (e.Name.length - (lit ".json").length) = []
    · have h3 : e.Name = lit ".json" := by rw [hn, h2]; rfl
      rw [if_pos (by tauto)]
      simp [Driver.Read, h2]
    · have h3 : e.Name ≠ lit ".json" := by
        intro h3
        apply h2
        rw [h3]
        decide
      rw [if_neg (by simp [h1.1, h1.2, h3])]
      have hpath := artifactPath_users w hstem
      rw [← hn] at hpath
      unfold artifactPath at hpath
      simp only [Driver.Read]
      rw [if_neg (by simp [h2]; decide), hpath]
      cases os.ReadFile w.fs (usersDir w ++ filepath.Separator :: e.Name) with
      | error err => simp
      | ok data =>
        cases hu : json.Unmarshal data with
        | error err => simp [hu, Except.toOption]
        | ok user => simp [hu, Except.toOption]

theorem foldl_getAllUsersStep (w : World) : ∀ (files : List os.DirEntry) (users : List User),
    (∀ e ∈ files, filepath.Separator ∉ e.Name) →
    files.foldl (getAllUsersStep w) users = users ++ files.filterMap (entryRecord w) := by
  intro files
  induction files with
  | nil => intro users _; simp
  | cons e files ih =>
    intro users h
    rw [List.foldl_cons, getAllUsersStep_eq w users e (h e (by simp)),
      ih _ (fun x hx => h x (by simp [hx]))]
    cases he : entryRecord w e <;> simp [List.filterMap_cons, he]

/-- The answer of `GetAllUsers` on a directory that can be listed: 200 with the records of
its entries, in listing order. -/
theorem GetAllUsers_eq {w : World} {files : List os.DirEntry}
    (h : os.ReadDir w.fs (usersDir w) = .ok files) :
    GetAllUsers w = ⟨StatusOK, .users (files.filterMap (entryRecord w))⟩ := by
  have h1 : os.ReadDir w.fs (filepath.Join [w.db.dir, lit "users"]) = .ok files := h
  simp only [GetAllUsers, h1]
  rw [foldl_getAllUsersStep w files [] (os.ReadDir_names_noSep h)]
  simp

/-! ### The entries of a directory after `Write` -/

theorem os.dropWhile_notSep {n : Str} (h : filepath.Separator ∉ n) (t : Str) :
    (n ++ 47 :: t).dropWhile (fun b => b ≠ 47) = 47 :: t ∧
      (n ++ 47 :: t).takeWhile (fun b => b ≠ 47) = n := by
  induction n with
  | nil => simp [List.dropWhile, List.takeWhile]
  | cons b n ih =>
    have hb : b ≠ 47 := fun hb => h (by simp [hb])
    have := ih (fun hm => h (by simp [hm]))
    show (b :: (n ++ 47 :: t)).dropWhile _ = _ ∧ (b :: (n ++ 47 :: t)).takeWhile _ = b :: n
    rw [List.dropWhile_cons_of_pos (by simpa using hb),
      List.takeWhile_cons_of_pos (by simpa using hb)]
    exact ⟨this.1, by rw [this.2]⟩

/-- The entry `n` of the directory `p`: its parent is `p` and its base name `n`. -/
theorem os.parent_base_child {p n : Str} (hp : p ≠ []) (hn : filepath.Separator ∉ n) :
    os.parent (p ++ 47 :: n) = p ∧ os.base (p ++ 47 :: n) = n := by
  have hrev : (p ++ 47 :: n).reverse = n.reverse ++ 47 :: p.reverse := by simp
  have hn1 : filepath.Separator ∉ n.reverse := by simpa using hn
  obtain ⟨h1, h2⟩ := os.dropWhile_notSep hn1 p.reverse
  constructor
  · unfold os.parent
    rw [hrev, h1]
    simp [hp]
  · unfold os.base
    rw [hrev, h2]
    simp

/-- A path is longer than its parent, unless the parent is `.` or `/`. -/
theorem os.parent_shorter {q p : Str} (h : os.parent q = p) (h1 : p ≠ [46]) (h2 : p ≠ [47]) :
    p.length < q.length := by
  unfold os.parent at h
  split at h
  · exact absurd h.symm h1
  · rename_i b d hd
    split at h
    · exact absurd h.symm h2
    · subst h
      have hs := List.dropWhile_suffix (fun b => decide (b ≠ 47)) (l := q.reverse)
      rw [hd] at hs
      have := hs.length_le
      simp at this ⊢
      omega

theorem os.mem_children {fs : os.FS} {p q : Str} :
    q ∈ os.children fs p ↔ q ∈ fs.keys ∧ os.isAmbient q = false ∧ os.parent q = p := by
  simp [os.children, List.mem_filter]

theorem os.children_insert_child {fs : os.FS} {p k : Str} (v : os.Node) (hk : k ∉ fs.keys)
    (hamb : os.isAmbient k = false) (hpar : os.parent k = p) :
    os.children (fs.insert k v) p = k :: os.children fs p := by
  simp only [os.children, AList.keys_insert]
  rw [List.filter_cons_of_pos (by simp [hamb, hpar])]
  congr 2
  exact @List.erase_of_not_mem Str instBEqOfDecidableEq inferInstance k fs.keys hk

theorem os.not_mem_keys {fs : os.FS} {p k : Str} (hk : k ∉ os.children fs p)
    (hamb : os.isAmbient k = false) (hpar : os.parent k = p) : k ∉ fs.keys :=
  fun hm => hk (os.mem_children.mpr ⟨hm, hamb, hpar⟩)

/-- Calling `MkdirAll` on a directory adds no entry to that directory. -/
theorem os.children_MkdirAll {fs fs1 : os.FS} {p : Str} (h : os.MkdirAll fs p = (none, fs1))
    (h1 : p ≠ [46]) (h2 : p ≠ [47]) (hempty : os.children fs p = []) :
    os.children fs1 p = [] := by
  rw [List.eq_nil_iff_forall_not_mem]
  intro q hq
  obtain ⟨hmem, hamb, hpar⟩ := os.mem_children.mp hq
  have hlen := os.parent_shorter hpar h1 h2
  rcases (os.mkdirAllFuel_spec _ _ _ _ _ h).1 q with hs | ⟨_, _, hpre⟩
  · simp only [os.Stat, hamb] at hs
    have hin : q ∈ fs.keys := by
      have h3 : (fs1.lookup q).isSome = true := AList.lookup_isSome.mpr (AList.mem_keys.mpr hmem)
      rw [show fs1.lookup q = fs.lookup q from hs] at h3
      exact AList.mem_keys.mp (AList.lookup_isSome.mp h3)
    have : q ∈ os.children fs p := os.mem_children.mpr ⟨hin, hamb, hpar⟩
    rw [hempty] at this
    simp at this
  · have := hpre.length_le
    omega

theorem usersDir_eq (w : World) : usersDir w = filepath.joinStem w.db.dir ++ lit "users" :=
  filepath.Join_two _ IsName_users

theorem usersDir_ne (w : World) : usersDir w ≠ [] ∧ usersDir w ≠ [46] ∧ usersDir w ≠ [47] := by
  rw [usersDir_eq, lit_users]
  refine ⟨by simp, ?_, ?_⟩ <;>
  · intro h
    have := congrArg List.length h
    simp at this

/-- A successful `Write` into `users` under a plain name: the collection
directory exists after `MkdirAll`, and the record's file is stored as the entry
`name.json` of that directory. -/
theorem Driver.Write_users {w w1 : World} {n : Str} {R : User}
    (hn : filepath.Separator ∉ n) (h : Driver.Write w (lit "users") n R = (none, w1)) :
    w1.db.dir = w.db.dir ∧ usersDir w1 = usersDir w ∧
      ∃ fs0, os.MkdirAll w.fs (usersDir w) = (none, fs0) ∧
        os.Stat fs0 (usersDir w) = some os.Node.dir ∧
        w1.fs = fs0.insert (usersDir w ++ 47 :: (n ++ lit ".json"))
          (os.Node.file (json.MarshalIndent R)) ∧
        os.isAmbient (usersDir w ++ 47 :: (n ++ lit ".json")) = false := by
  obtain ⟨_, _, hdir, fs0, hmk, hfs, hamb⟩ := Driver.Write_ok h
  have hpath := artifactPath_users w hn
  unfold artifactPath at hpath
  rw [hpath] at hfs hamb
  refine ⟨hdir, by simp only [usersDir, hdir], fs0, hmk, ?_, hfs, hamb⟩
  exact (os.mkdirAllFuel_spec _ _ _ _ _ hmk).2 rfl

/-- After such a `Write` of a name that had no entry yet, the directory has
the new entry in front of the entries `MkdirAll` left. -/
theorem Driver.Write_users_children {w w1 : World} {n : Str} {R : User} {fs0 : os.FS}
    (hn : filepath.Separator ∉ n)
    (hfs : w1.fs = fs0.insert (usersDir w ++ 47 :: (n ++ lit ".json"))
      (os.Node.file (json.MarshalIndent R)))
    (hamb : os.isAmbient (usersDir w ++ 47 :: (n ++ lit ".json")) = false)
    (hnew : usersDir w ++ 47 :: (n ++ lit ".json") ∉ os.children fs0 (usersDir w)) :
    os.children w1.fs (usersDir w) =
      (usersDir w ++ 47 :: (n ++ lit ".json")) :: os.children fs0 (usersDir w) := by
  have hsep : filepath.Separator ∉ n ++ lit ".json" := by
    rw [lit_json]; simp [hn]
  have hpar := (os.parent_base_child (usersDir_ne w).1 hsep).1
  rw [hfs]
  exact os.children_insert_child _ (os.not_mem_keys hnew hamb hpar) hamb hpar

theorem child_ne {p n m : Str} (h : n ≠ m) : p ++ 47 :: n ≠ p ++ 47 :: m := by
  intro he
  apply h
  simpa using he

theorem self_ne_child (p n : Str) : p ≠ p ++ 47 :: n := by
  intro he
  have := congrArg List.length he
  simp at this

/-- The entry of a directory listing for the file `n` of the directory `p`. -/
theorem os.ReadDir_of_children {fs : os.FS} {p : Str} (hdir : os.Stat fs p = some os.Node.dir) :
    os.ReadDir fs p = .ok
      ((List.insertionSort (fun a b => os.strLE a b = true) ((os.children fs p).map os.base)).map
        (fun n => ⟨n, decide (os.Stat fs (os.childPath p n) = some os.Node.dir)⟩)) := by
  simp only [os.ReadDir, hdir]

/-- Three records with different plain names created one after the other in
an empty collection: the directory lists exactly their three files, by name. -/
theorem ReadDir_three_creates {w w1 w2 w3 : World} {n1 n2 n3 : Str} {R1 R2 R3 : User}
    (s1 : filepath.Separator ∉ n1) (s2 : filepath.Separator ∉ n2)
    (s3 : filepath.Separator ∉ n3) (d12 : n1 ≠ n2) (d13 : n1 ≠ n3) (d23 : n2 ≠ n3)
    (hempty : os.children w.fs (usersDir w) = [])
    (h1 : Driver.Write w (lit "users") n1 R1 = (none, w1))
    (h2 : Driver.Write w1 (lit "users") n2 R2 = (none, w2))
    (h3 : Driver.Write w2 (lit "users") n3 R3 = (none, w3)) :
    usersDir w3 = usersDir w ∧
      os.ReadDir w3.fs (usersDir w) =
        .ok ((List.insertionSort (fun a b => os.strLE a b = true)
          [n3 ++ lit ".json", n2 ++ lit ".json", n1 ++ lit ".json"]).map
            (fun n => ⟨n, false⟩)) ∧
      os.ReadFile w3.fs (usersDir w ++ 47 :: (n1 ++ lit ".json")) = .ok (json.MarshalIndent R1) ∧
      os.ReadFile w3.fs (usersDir w ++ 47 :: (n2 ++ lit ".json")) = .ok (json.MarshalIndent R2) ∧
      os.ReadFile w3.fs (usersDir w ++ 47 :: (n3 ++ lit ".json")) = .ok (json.MarshalIndent R3) := by
  have sj : ∀ {n : Str}, filepath.Separator ∉ n → filepath.Separator ∉ n ++ lit ".json" := by
    intro n hn; rw [lit_json]; simp [hn]
  have dj : ∀ {n m : Str}, n ≠ m → n ++ lit ".json" ≠ m ++ lit ".json" :=
    fun hnm he => hnm (List.append_cancel_right he)
  obtain ⟨hne, hdot, hroot⟩ := usersDir_ne w
  -- first create
  obtain ⟨_, hU1, fs0, hmk1, hS0, hfs1, hamb1⟩ := Driver.Write_users s1 h1
  have hc0 : os.children fs0 (usersDir w) = [] := os.children_MkdirAll hmk1 hdot hroot hempty
  have hch1 := Driver.Write_users_children s1 hfs1 hamb1 (by rw [hc0]; simp)
  rw [hc0] at hch1
  have hS1 : os.Stat w1.fs (usersDir w) = some os.Node.dir := by
    rw [hfs1, os.Stat_insert_ne (self_ne_child _ _)]; exact hS0
  -- second create
  obtain ⟨_, hU2, fs1, hmk2, _, hfs2, hamb2⟩ := Driver.Write_users s2 h2
  rw [hU1] at hmk2 hfs2 hamb2 hU2
  rw [os.MkdirAll_dir hS1] at hmk2
  simp only [Prod.mk.injEq, true_and] at hmk2
  subst hmk2
  have hch2 : os.children w2.fs (usersDir w) =
      [usersDir w ++ 47 :: (n2 ++ lit ".json"), usersDir w ++ 47 :: (n1 ++ lit ".json")] := by
    have hpar := (os.parent_base_child hne (sj s2)).1
    rw [hfs2, os.children_insert_child _ _ hamb2 hpar, hch1]
    apply os.not_mem_keys _ hamb2 hpar
    rw [hch1]
    simp only [List.mem_singleton]
    exact child_ne (dj (Ne.symm d12))
  have hS2 : os.Stat w2.fs (usersDir w) = some os.Node.dir := by
    rw [hfs2, os.Stat_insert_ne (self_ne_child _ _)]; exact hS1
  -- third create
  obtain ⟨_, hU3, fs2, hmk3, _, hfs3, hamb3⟩ := Driver.Write_users s3 h3
  rw [hU2] at hmk3 hfs3 hamb3 hU3
  rw [os.MkdirAll_dir hS2] at hmk3
  simp only [Prod.mk.injEq, true_and] at hmk3
  subst hmk3
  have hch3 : os.children w3.fs (usersDir w) =
      [usersDir w ++ 47 :: (n3 ++ lit ".json"), usersDir w ++ 47 :: (n2 ++ lit ".json"),
        usersDir w ++ 47 :: (n1 ++ lit ".json")] := by
    have hpar := (os.parent_base_child hne (sj s3)).1
    rw [hfs3, os.children_insert_child _ _ hamb3 hpar, hch2]
    apply os.not_mem_keys _ hamb3 hpar
    rw [hch2]
    simp only [List.mem_cons, List.mem_singleton, List.not_mem_nil, or_false, not_or]
    exact ⟨child_ne (dj (Ne.symm d23)), child_ne (dj (Ne.symm d13))⟩
  have hS3 : os.Stat w3.fs (usersDir w) = some os.Node.dir := by
    rw [hfs3, os.Stat_insert_ne (self_ne_child _ _)]; exact hS2
  -- the three files
  have hF1 : os.Stat w3.fs (usersDir w ++ 47 :: (n1 ++ lit ".json")) =
      some (os.Node.file (json.MarshalIndent R1)) := by
    rw [hfs3, os.Stat_insert_ne (child_ne (dj d13)), hfs2,
      os.Stat_insert_ne (child_ne (dj d12)), hfs1]
    exact os.Stat_insert_self hamb1
  have hF2 : os.Stat w3.fs (usersDir w ++ 47 :: (n2 ++ lit ".json")) =
      some (os.Node.file (json.MarshalIndent R2)) := by
    rw [hfs3, os.Stat_insert_ne (child_ne (dj d23)), hfs2]
    exact os.Stat_insert_self hamb2
  have hF3 : os.Stat w3.fs (usersDir w ++ 47 :: (n3 ++ lit ".json")) =
      some (os.Node.file (json.MarshalIndent R3)) := by
    rw [hfs3]
    exact os.Stat_insert_self hamb3
  have hcp : ∀ n, os.childPath (usersDir w) n = usersDir w ++ 47 :: n := by
    intro n; simp [os.childPath, hdot, hroot]
  refine ⟨hU3, ?_, by simp [os.ReadFile, hF1], by simp [os.ReadFile, hF2],
    by simp [os.ReadFile, hF3]⟩
  rw [os.ReadDir_of_children hS3, hch3]
  simp only [List.map, (os.parent_base_child hne (sj s1)).2, (os.parent_base_child hne (sj s2)).2,
    (os.parent_base_child hne (sj s3)).2]
  congr 1
  apply List.map_congr_left
  intro n hn
  rw [List.mem_insertionSort] at hn
  simp only [List.mem_cons, List.mem_singleton, List.not_mem_nil, or_false] at hn
  rcases hn with rfl | rfl | rfl <;> simp [hcp, hF1, hF2, hF3]

/-- The answer of `GetAllUsers` on a directory that lists the three files `a.json`, `b.json`
and `c.json`, each holding the encoding of a record. -/
theorem GetAllUsers_of_listing {w : World} {Xa Xb Xc : User}
    (hlist : os.ReadDir w.fs (usersDir w) =
      .ok [⟨lit "a.json", false⟩, ⟨lit "b.json", false⟩, ⟨lit "c.json", false⟩])
    (hfa : os.ReadFile w.fs (usersDir w ++ 47 :: lit "a.json") = .ok (json.MarshalIndent Xa))
    (hfb : os.ReadFile w.fs (usersDir w ++ 47 :: lit "b.json") = .ok (json.MarshalIndent Xb))
    (hfc : os.ReadFile w.fs (usersDir w ++ 47 :: lit "c.json") = .ok (json.MarshalIndent Xc)) :
    GetAllUsers w =
      ⟨StatusOK, .users [json.coerceUser Xa, json.coerceUser Xb, json.coerceUser Xc]⟩ := by
  have hea : filepath.Ext (lit "a.json") = lit ".json" := by decide
  have heb : filepath.Ext (lit "b.json") = lit ".json" := by decide
  have hec : filepath.Ext (lit "c.json") = lit ".json" := by decide
  have hna : lit "a.json" ≠ lit ".json" := by decide
  have hnb : lit "b.json" ≠ lit ".json" := by decide
  have hnc : lit "c.json" ≠ lit ".json" := by decide
  rw [GetAllUsers_eq hlist]
  simp [entryRecord, hea, heb, hec, hna, hnb, hnc, hfa, hfb, hfc,
    json.Unmarshal_MarshalIndent, Except.toOption]

theorem perm_three_cases {x y z a b c : Str} (h : [x, y, z].Perm [a, b, c]) :
    (x = a ∧ y = b ∧ z = c) ∨ (x = a ∧ y = c ∧ z = b) ∨ (x = b ∧ y = a ∧ z = c) ∨
    (x = b ∧ y = c ∧ z = a) ∨ (x = c ∧ y = a ∧ z = b) ∨ (x = c ∧ y = b ∧ z = a) ∨
    (a = b ∨ a = c ∨ b = c) := by
  by_cases hab : a = b
  · exact Or.inr (Or.inr (Or.inr (Or.inr (Or.inr (Or.inr (Or.inl hab))))))
  by_cases hac : a = c
  · exact Or.inr (Or.inr (Or.inr (Or.inr (Or.inr (Or.inr (Or.inr (Or.inl hac)))))))
  by_cases hbc : b = c
  · exact Or.inr (Or.inr (Or.inr (Or.inr (Or.inr (Or.inr (Or.inr (Or.inr hbc)))))))
  have hnd : [a, b, c].Nodup := by simp [hab, hac, hbc]
  have hnd1 : [x, y, z].Nodup := h.nodup_iff.mpr hnd
  simp only [List.nodup_cons, List.mem_cons, List.mem_singleton, List.not_mem_nil, or_false,
    not_or, List.nodup_nil, and_true, not_false_eq_true] at hnd1
  obtain ⟨⟨hxy, hxz⟩, hyz⟩ := hnd1
  have hx : x ∈ [a, b, c] := h.subset (by simp)
  have hy : y ∈ [a, b, c] := h.subset (by simp)
  have hz : z ∈ [a, b, c] := h.subset (by simp)
  simp only [List.mem_cons, List.mem_singleton, List.not_mem_nil, or_false] at hx hy hz
  rcases hx with rfl | rfl | rfl <;> rcases hy with rfl | rfl | rfl <;>
    rcases hz with rfl | rfl | rfl <;> simp_all

/-- Records named `a`, `b`, `c` created in any order in an empty collection:
`GetAllUsers` answers with the three records, in the order of their names. -/
theorem GetAllUsers_three_creates {w w1 w2 w3 : World} {R1 R2 R3 : User}
    (hnames : [R1.Name, R2.Name, R3.Name].Perm [lit "a", lit "b", lit "c"])
    (hempty : os.children w.fs (usersDir w) = [])
    (h1 : Driver.Write w (lit "users") R1.Name R1 = (none, w1))
    (h2 : Driver.Write w1 (lit "users") R2.Name R2 = (none, w2))
    (h3 : Driver.Write w2 (lit "users") R3.Name R3 = (none, w3)) :
    ∃ us, GetAllUsers w3 = ⟨StatusOK, .users us⟩ ∧
      us.Perm [json.coerceUser R1, json.coerceUser R2, json.coerceUser R3] ∧
      us.map User.Name = [lit "a", lit "b", lit "c"] := by
  have ja : lit "a" ++ lit ".json" = lit "a.json" := by decide
  have jb : lit "b" ++ lit ".json" = lit "b.json" := by decide
  have jc : lit "c" ++ lit ".json" = lit "c.json" := by decide
  have sa : filepath.Separator ∉ lit "a" := by decide
  have sb : filepath.Separator ∉ lit "b" := by decide
  have sc : filepath.Separator ∉ lit "c" := by decide
  have ca : json.coerce (lit "a") = lit "a" := by decide
  have cb : json.coerce (lit "b") = lit "b" := by decide
  have cc : json.coerce (lit "c") = lit "c" := by decide
  rcases perm_three_cases hnames with ⟨e1, e2, e3⟩ | ⟨e1, e2, e3⟩ | ⟨e1, e2, e3⟩ |
    ⟨e1, e2, e3⟩ | ⟨e1, e2, e3⟩ | ⟨e1, e2, e3⟩ | hbad
  · rw [e1] at h1; rw [e2] at h2; rw [e3] at h3
    obtain ⟨hU, hlist, hf1, hf2, hf3⟩ := ReadDir_three_creates sa sb sc
      (by decide) (by decide) (by decide) hempty h1 h2 h3
    simp only [← hU, ja, jb, jc] at hlist hf1 hf2 hf3
    have hsort : List.insertionSort (fun a b => os.strLE a b = true)
        [lit "c.json", lit "b.json", lit "a.json"]
        = [lit "a.json", lit "b.json", lit "c.json"] := by decide
    rw [hsort] at hlist
    refine ⟨_, GetAllUsers_of_listing hlist hf1 hf2 hf3, List.Perm.refl _, ?_⟩
    simp [json.coerceUser, e1, e2, e3, ca, cb, cc]
  · rw [e1] at h1; rw [e2] at h2; rw [e3] at h3
    obtain ⟨hU, hlist, hf1, hf2, hf3⟩ := ReadDir_three_creates sa sc sb
      (by decide) (by decide) (by decide) hempty h1 h2 h3
    simp only [← hU, ja, jb, jc] at hlist hf1 hf2 hf3
    have hsort : List.insertionSort (fun a b => os.strLE a b = true)
        [lit "b.json", lit "c.json", lit "a.json"]
        = [lit "a.json", lit "b.json", lit "c.json"] := by decide
    rw [hsort] at hlist
    refine ⟨_, GetAllUsers_of_listing hlist hf1 hf3 hf2,
      List.Perm.cons _ (List.Perm.swap _ _ _), ?_⟩
    simp [json.coerceUser, e1, e2, e3, ca, cb, cc]
  · rw [e1] at h1; rw [e2] at h2; rw [e3] at h3
    obtain ⟨hU, hlist, hf1, hf2, hf3⟩ := ReadDir_three_creates sb sa sc
      (by decide) (by decide) (by decide) hempty h1 h2 h3
    simp only [← hU, ja, jb, jc] at hlist hf1 hf2 hf3
    have hsort : List.insertionSort (fun a b => os.strLE a b = true)
        [lit "c.json", lit "a.json", lit "b.json"]
        = [lit "a.json", lit "b.json", lit "c.json"] := by decide
    rw [hsort] at hlist
    refine ⟨_, GetAllUsers_of_listing hlist hf2 hf1 hf3, List.Perm.swap _ _ _, ?_⟩
    simp [json.coerceUser, e1, e2, e3, ca, cb, cc]
  · rw [e1] at h1; rw [e2] at h2; rw [e3] at h3
    obtain ⟨hU, hlist, hf1, hf2, hf3⟩ := ReadDir_three_creates sb sc sa
      (by decide) (by decide) (by decide) hempty h1 h2 h3
    simp only [← hU, ja, jb, jc] at hlist hf1 hf2 hf3
    have hsort : List.insertionSort (fun a b => os.strLE a b = true)
        [lit "a.json", lit "c.json", lit "b.json"]
        = [lit "a.json", lit "b.json", lit "c.json"] := by decide
    rw [hsort] at hlist
    refine ⟨_, GetAllUsers_of_listing hlist hf3 hf1 hf2, ?_, ?_⟩
    · exact (List.Perm.swap _ _ _).trans (List.Perm.cons _ (List.Perm.swap _ _ _))
    · simp [json.coerceUser, e1, e2, e3, ca, cb, cc]
  · rw [e1] at h1; rw [e2] at h2; rw [e3] at h3
    obtain ⟨hU, hlist, hf1, hf2, hf3⟩ := ReadDir_three_creates sc sa sb
      (by decide) (by decide) (by decide) hempty h1 h2 h3
    simp only [← hU, ja, jb, jc] at hlist hf1 hf2 hf3
    have hsort : List.insertionSort (fun a b => os.strLE a b = true)
        [lit "b.json", lit "a.json", lit "c.json"]
        = [lit "a.json", lit "b.json", lit "c.json"] := by decide
    rw [hsort] at hlist
    refine ⟨_, GetAllUsers_of_listing hlist hf2 hf3 hf1, ?_, ?_⟩
    · exact (List.Perm.cons _ (List.Perm.swap _ _ _)).trans (List.Perm.swap _ _ _)
    · simp [json.coerceUser, e1, e2, e3, ca, cb, cc]
  · rw [e1] at h1; rw [e2] at h2; rw [e3] at h3
    obtain ⟨hU, hlist, hf1, hf2, hf3⟩ := ReadDir_three_creates sc sb sa
      (by decide) (by decide) (by decide) hempty h1 h2 h3
    simp only [← hU, ja, jb, jc] at hlist hf1 hf2 hf3
    have hsort : List.insertionSort (fun a b => os.strLE a b = true)
        [lit "a.json", lit "b.json", lit "c.json"]
        = [lit "a.json", lit "b.json", lit "c.json"] := by decide
    rw [hsort] at hlist
    refine ⟨_, GetAllUsers_of_listing hlist hf3 hf2 hf1, ?_, ?_⟩
    · exact ((List.Perm.swap _ _ _).trans (List.Perm.cons _ (List.Perm.swap _ _ _))).trans
        (List.Perm.swap _ _ _)
    · simp [json.coerceUser, e1, e2, e3, ca, cb, cc]
  · exfalso
    revert hbad
    decide

/-- C6 (as amended).  Enumeration: in every state whose `users` directory
exists, `GetAllUsers` answers 200 with, in directory-listing order, exactly the
decoded records of the entries that are files, have the extension `.json`,
have a non-empty name before the extension, and whose content decodes; the
other entries are skipped without failing the listing, and when no entry has a
record the answer is the empty sequence.  In particular, after successful
`Write`s of three records whose names are `a`, `b`, `c` (in any order) into an
empty collection of any state, `GetAllUsers` answers with exactly three
records: the records written (each field coerced to valid UTF-8), with the
names `a`, `b`, `c`. -/
theorem fetchAll_lists_decodable_entries (w : World)
    (hdir : os.Stat w.fs (usersDir w) = some os.Node.dir) :
    GetAllUsers w = ⟨StatusOK, .users ((usersEntries w).filterMap (entryRecord w))⟩ ∧
      ((∀ e ∈ usersEntries w, entryRecord w e = none) →
        GetAllUsers w = ⟨StatusOK, .users []⟩) ∧
      (∀ (v v1 v2 v3 : World) (R1 R2 R3 : User),
        [R1.Name, R2.Name, R3.Name].Perm [lit "a", lit "b", lit "c"] →
        os.children v.fs (usersDir v) = [] →
        Driver.Write v (lit "users") R1.Name R1 = (none, v1) →
        Driver.Write v1 (lit "users") R2.Name R2 = (none, v2) →
        Driver.Write v2 (lit "users") R3.Name R3 = (none, v3) →
        ∃ us, GetAllUsers v3 = ⟨StatusOK, .users us⟩ ∧
          us.Perm [json.coerceUser R1, json.coerceUser R2, json.coerceUser R3] ∧
          us.map User.Name = [lit "a", lit "b", lit "c"]) := by
  have hread := os.ReadDir_of_children hdir
  have hentries : os.ReadDir w.fs (usersDir w) = .ok (usersEntries w) := by
    simp only [usersEntries, hread]
  have hall := GetAllUsers_eq hentries
  refine ⟨hall, ?_, ?_⟩
  · intro hnone
    rw [hall]
    have : (usersEntries w).filterMap (entryRecord w) = [] := by
      rw [List.filterMap_eq_nil_iff]
      exact hnone
    rw [this]
  · intro v v1 v2 v3 R1 R2 R3 hnames hempty h1 h2 h3
    exact GetAllUsers_three_creates hnames hempty h1 h2 h3

set_option maxRecDepth 1000000 in
/-- The listing after the records `c`, `a`, `b` were created in the fresh store. -/
theorem fetchAll_lists_decodable_entries_witness :
    GetAllUsers (afterCreate (afterCreate (afterCreate freshStore (sampleUser "c"))
        (sampleUser "a")) (sampleUser "b")) =
      ⟨StatusOK, .users ((usersEntries (afterCreate (afterCreate (afterCreate freshStore
          (sampleUser "c")) (sampleUser "a")) (sampleUser "b"))).filterMap
        (entryRecord (afterCreate (afterCreate (afterCreate freshStore (sampleUser "c"))
          (sampleUser "a")) (sampleUser "b"))))⟩ :=
  (fetchAll_lists_decodable_entries
    (afterCreate (afterCreate (afterCreate freshStore (sampleUser "c")) (sampleUser "a"))
      (sampleUser "b")) (by decide)).1

set_option maxRecDepth 1000000 in
/-- C6 as stated fails: in `bareExtensionStore` the `users` directory exists
and its one entry `.json` is a file with the extension `.json` whose content
decodes (to the record `sampleUser "z"`), yet `GetAllUsers` answers with no
record: the name before the extension is empty and `Read` refuses it. -/
theorem fetchAll_skips_bare_extension :
    os.Stat bareExtensionStore.fs (usersDir bareExtensionStore) = some os.Node.dir ∧
      usersEntries bareExtensionStore = [⟨lit ".json", false⟩] ∧
      entryRecordAsSpecified bareExtensionStore ⟨lit ".json", false⟩ = some (sampleUser "z") ∧
      GetAllUsers bareExtensionStore = ⟨StatusOK, .users []⟩ ∧
      GetAllUsers bareExtensionStore ≠
        ⟨StatusOK, .users ((usersEntries bareExtensionStore).filterMap
          (entryRecordAsSpecified bareExtensionStore))⟩ := by
  decide

end GoCustomDB
